import Mathlib

open Matrix

/-!
Shallow embedding of the quantum circuit builder class qc of
src/lib/circuit.py, together with proofs about its recording and
execution behaviour.

The helper modules ir.py, ops.py, state.py and tensor.py of the
repository are not among the sources at hand; where circuit.py relies on
them they are modelled from the specification, and every such definition
carries a doc comment beginning with: Modelled from the spec.

A state is an amplitude function over assignments of a Boolean to every
qubit position; a circuit owns one state, the recorded IR, the qubit
counter and the two mode flags, exactly like the python class.  A gate
call records an IR node when build_ir is set and invokes the
gate-application kernel when eager is set, in the order of the python
code (the node is appended before the index assertion fires).
-/

/-- Failure conditions raised by the python code: the invalid-qubit-index
assertions of qc.apply1 / qc.applyc and of the gate kernel, the
ancilla-count assertion of qc.multi_control, a python list
index-out-of-range error, the non-eager precondition assertion of
qc.control_by, and the arity TypeError raised by qc.invert. -/
inductive Err
  | index
  | ancilla
  | listIndex
  | precondition
  | typeError
deriving DecidableEq

/-- Modelled from the spec: an ops.Operator payload on one qubit is an
immutable 2x2 matrix (display names are presentation metadata and are
omitted; the adjoint is the conjugate transpose). -/
abbrev Mat2 (R : Type) := Matrix (Fin 2) (Fin 2) R

/-- Modelled from the spec: a state.State is the dense amplitude vector
over the basis assignments; an amplitude is indexed by the assignment of
a Boolean to every qubit position (positions at or beyond the allocated
qubit count are never touched by the builder). -/
abbrev QState (R : Type) := (ℕ → Bool) → R

/-- Row or column index of a 2x2 matrix selected by a bit. -/
def bIdx (b : Bool) : Fin 2 := if b then 1 else 0

variable {R : Type} [CommRing R] [StarRing R]

/-- Modelled from the spec, gate-application kernel, single target: the
new amplitude at an assignment mixes the pair of amplitudes that differ
in the target bit through the 2x2 matrix. -/
def apply1K (g : Mat2 R) (t : ℕ) (ψ : QState R) : QState R :=
  fun b =>
    g (bIdx (b t)) 0 * ψ (Function.update b t false) +
      g (bIdx (b t)) 1 * ψ (Function.update b t true)

/-- Modelled from the spec, gate-application kernel, controlled: only the
amplitudes whose control bit is 1 are touched. -/
def applycK (g : Mat2 R) (c t : ℕ) (ψ : QState R) : QState R :=
  fun b => if b c then apply1K g t ψ b else ψ b

/-- Modelled from the spec: an ir node is a single-target gate node or a
controlled gate node, carrying the operator, the qubit indices and the
optional real parameter (sections group nodes for export only and carry
no semantics, so they are omitted). -/
inductive Node (R : Type)
  | single (idx0 : ℕ) (gate : Mat2 R) (val : Option ℝ)
  | ctl (ctl : ℕ) (idx1 : ℕ) (gate : Mat2 R) (val : Option ℝ)

/-- A control argument of the python gate API: either a plain qubit index
or a one-element list requesting control-by-0, as read by qc._ctl_by_0. -/
inductive CtlArg
  | pos (q : ℕ)
  | neg (q : ℕ)
deriving DecidableEq

instance : Inhabited CtlArg := ⟨CtlArg.pos 0⟩

/-- The qubit index of a control argument, first component of
qc._ctl_by_0. -/
def CtlArg.qubit : CtlArg → ℕ
  | .pos q => q
  | .neg q => q

/-- One invocation of qc.apply1 (one index of the index set) or of
qc.applyc. -/
inductive Call (R : Type)
  | app1 (gate : Mat2 R) (idx : ℕ) (val : Option ℝ)
  | appc (gate : Mat2 R) (ctl : CtlArg) (idx : ℕ) (val : Option ℝ)

/-- The circuit class qc: one state, one IR, the qubit count and the two
mode flags (global_reg and sub_circuits bookkeeping is not needed by any
property below). -/
structure qc (R : Type) where
  nbits : ℕ
  psi : QState R
  ir : List (Node R)
  eager : Bool
  build_ir : Bool

/-- Modelled from the spec: ops.PauliX. -/
def XGate (R : Type) [CommRing R] : Mat2 R := !![0, 1; 1, 0]

/-- qc.__init__: build_ir is the negation of the eager argument, computed
before the output-file flags are consulted; if any output-file flag is
set, eager is then forced off.  A fresh circuit has no qubits, the scalar
unit state and an empty IR. -/
def qc.init (R : Type) [CommRing R] (eager : Bool) (dumpFlags : Bool) : qc R :=
  { nbits := 0, psi := fun _ => 1, ir := [], eager := eager && !dumpFlags,
    build_ir := !eager }

/-- qc.apply1 at a single index: append the IR node if build_ir, then, if
eager, assert the target index is in range and call the kernel. -/
def qc.apply1 (c : qc R) (g : Mat2 R) (idx : ℕ) (val : Option ℝ) :
    qc R × Option Err :=
  let c1 : qc R :=
    if c.build_ir then { c with ir := c.ir ++ [Node.single idx g val] } else c
  if c.eager then
    if idx < c.nbits then ({ c1 with psi := apply1K g idx c1.psi }, none)
    else (c1, some Err.index)
  else (c1, none)

/-- The body of qc.applyc once the control argument is reduced to its
qubit: append the controlled node if build_ir, then, if eager, assert the
target index and call the kernel; the kernel precondition (Modelled from
the spec) also requires the control index to be in range. -/
def qc.applycCore (c : qc R) (g : Mat2 R) (cq idx : ℕ) (val : Option ℝ) :
    qc R × Option Err :=
  let c1 : qc R :=
    if c.build_ir then { c with ir := c.ir ++ [Node.ctl cq idx g val] } else c
  if c.eager then
    if idx < c.nbits then
      if cq < c.nbits then ({ c1 with psi := applycK g cq idx c1.psi }, none)
      else (c1, some Err.index)
    else (c1, some Err.index)
  else (c1, none)

/-- Sequencing with python exception propagation: once a step has failed
the remaining steps do not run and the object keeps the state it had at
the raise point. -/
def seqE {R : Type} (r : qc R × Option Err) (f : qc R → qc R × Option Err) :
    qc R × Option Err :=
  match r with
  | (c, none) => f c
  | (c, some e) => (c, some e)

/-- qc.applyc: a control-by-0 argument brackets the control qubit with X
gates issued through qc.apply1, around the recording and kernel call. -/
def qc.applyc (c : qc R) (g : Mat2 R) (ctl : CtlArg) (idx : ℕ)
    (val : Option ℝ) : qc R × Option Err :=
  match ctl with
  | .pos q => qc.applycCore c g q idx val
  | .neg q =>
      seqE (qc.apply1 c (XGate R) q none) fun c2 =>
        seqE (qc.applycCore c2 g q idx val) fun c3 =>
          qc.apply1 c3 (XGate R) q none

/-- Run one recorded call against a circuit. -/
def execCall (c : qc R) : Call R → qc R × Option Err
  | .app1 g i v => qc.apply1 c g i v
  | .appc g ct i v => qc.applyc c g ct i v

/-- Run a straight-line sequence of gate calls, stopping at the first
failure. -/
def execCalls (c : qc R) : List (Call R) → qc R × Option Err
  | [] => (c, none)
  | k :: ks => seqE (execCall c k) fun c2 => execCalls c2 ks

/-- The X bracket emitted for a control-by-0 argument of qc.ccu. -/
def xIf (R : Type) [CommRing R] : CtlArg → List (Call R)
  | .pos _ => []
  | .neg q => [Call.app1 (XGate R) q none]

/-- The call sequence of qc.ccu, the Sleator-Weinfurter construction: X
brackets for one-element-list controls around controlled V, cx,
controlled V adjoint, cx, controlled V, where V is the principal matrix
square root of the operator.  Modelled from the spec: the square root is
computed by the external scipy primitive, which enters the embedding as
the parameter sm. -/
def ccuCalls (sm : Mat2 R → Mat2 R) (c0 c1 : CtlArg) (t : ℕ) (u : Mat2 R) :
    List (Call R) :=
  xIf R c0 ++ xIf R c1 ++
    [Call.appc (sm u) (.pos c0.qubit) t none,
     Call.appc (XGate R) (.pos c0.qubit) c1.qubit none,
     Call.appc (sm u)ᴴ (.pos c1.qubit) t none,
     Call.appc (XGate R) (.pos c0.qubit) c1.qubit none,
     Call.appc (sm u) (.pos c1.qubit) t none] ++
  xIf R c1 ++ xIf R c0

/-- qc.ccu runs its call sequence against the circuit. -/
def qc.ccu (sm : Mat2 R → Mat2 R) (c : qc R) (c0 c1 : CtlArg) (t : ℕ)
    (u : Mat2 R) : qc R × Option Err :=
  execCalls c (ccuCalls sm c0 c1 t u)

/-- qc.ccx and qc.toffoli call qc.ccu with the Pauli X operator. -/
def ccxCalls (sm : Mat2 R → Mat2 R) (a b : CtlArg) (t : ℕ) : List (Call R) :=
  ccuCalls sm a b t (XGate R)

/-- The call sequence of the aux ladder of qc.multi_control for three or
more controls: compute the conjunction of the controls into the ancilla
chain by doubly-controlled X gates, apply the gate singly controlled by
the final ancilla, then uncompute the ladder in reverse. -/
def mcLadderCalls (sm : Mat2 R → Mat2 R) (ctl : List CtlArg) (idx1 : ℕ)
    (aux : List ℕ) (g : Mat2 R) : List (Call R) :=
  ccxCalls sm (ctl.getD 0 default) (ctl.getD 1 default) (aux.getD 0 0) ++
  ((List.range (ctl.length - 2)).flatMap fun j =>
    ccxCalls sm (ctl.getD (j + 2) default) (.pos (aux.getD j 0))
      (aux.getD (j + 1) 0)) ++
  [Call.appc g (.pos (aux.getD (ctl.length - 2) 0)) idx1 none] ++
  ((List.range (ctl.length - 2)).reverse.flatMap fun j =>
    ccxCalls sm (ctl.getD (j + 2) default) (.pos (aux.getD j 0))
      (aux.getD (j + 1) 0)) ++
  ccxCalls sm (ctl.getD 0 default) (ctl.getD 1 default) (aux.getD 0 0)

/-- qc.multi_control.  The ancilla assertion only runs when the aux list
is truthy, that is non-empty; with an empty aux list and at least three
controls the first ladder access aux[0] raises a python IndexError before
any gate is recorded or applied.  Zero, one and two controls degenerate
to qc.apply1, qc.applyc and qc.ccu. -/
def qc.multi_control (sm : Mat2 R → Mat2 R) (c : qc R) (ctl : List CtlArg)
    (idx1 : ℕ) (aux : List ℕ) (g : Mat2 R) : qc R × Option Err :=
  if aux ≠ [] ∧ aux.length < ctl.length - 1 then (c, some Err.ancilla)
  else if ctl = [] then qc.apply1 c g idx1 none
  else if ctl.length = 1 then qc.applyc c g (ctl.getD 0 default) idx1 none
  else if ctl.length = 2 then
    execCalls c (ccuCalls sm (ctl.getD 0 default) (ctl.getD 1 default) idx1 g)
  else if aux = [] then (c, some Err.listIndex)
  else execCalls c (mcLadderCalls sm ctl idx1 aux g)

/-- Modelled from the spec: ops.Hadamard. -/
noncomputable def HGate : Mat2 ℂ :=
  !![((Real.sqrt 2)⁻¹ : ℝ), ((Real.sqrt 2)⁻¹ : ℝ);
     ((Real.sqrt 2)⁻¹ : ℝ), (-(Real.sqrt 2)⁻¹ : ℝ)]

/-- Modelled from the spec: ops.U1, the phase gate diag(1, exp(i theta)). -/
noncomputable def U1 (θ : ℝ) : Mat2 ℂ :=
  !![1, 0; 0, Complex.exp (θ * Complex.I)]

/-- The principal matrix square root of Pauli X, the value the external
scipy primitive returns on X. -/
noncomputable def sqrtX : Mat2 ℂ :=
  !![(1 + Complex.I) / 2, (1 - Complex.I) / 2;
     (1 - Complex.I) / 2, (1 + Complex.I) / 2]

/-- The call sequence of qc.swap. -/
def swapCalls (R : Type) [CommRing R] (i0 i1 : ℕ) : List (Call R) :=
  [Call.appc (XGate R) (.pos i1) i0 none,
   Call.appc (XGate R) (.pos i0) i1 none,
   Call.appc (XGate R) (.pos i1) i0 none]

/-- The call sequence of qc.flip. -/
def flipCalls (R : Type) [CommRing R] (reg : List ℕ) : List (Call R) :=
  (List.range (reg.length / 2)).flatMap fun i =>
    swapCalls R (reg.getD i 0) (reg.getD (reg.length - 1 - i) 0)

/-- The call sequence of qc.qft without the optional swaps: for i from
high to low, a Hadamard on reg[i] followed by controlled U1 rotations
cu1(reg[i], reg[j], pi / 2^(i-j)) for j below i, also high to low. -/
noncomputable def qftCalls (reg : List ℕ) : List (Call ℂ) :=
  (List.range reg.length).reverse.flatMap fun i =>
    Call.app1 HGate (reg.getD i 0) none ::
      (List.range i).reverse.map fun j =>
        Call.appc (U1 (Real.pi / 2 ^ (i - j))) (.pos (reg.getD i 0))
          (reg.getD j 0) (some (Real.pi / 2 ^ (i - j)))

/-- The call sequence of qc.inverse_qft without the optional swaps: for
idx from low to high, a Hadamard on reg[idx] and then, except after the
last qubit, controlled U1 rotations
cu1(reg[idx+1], reg[y], -pi / 2^(idx+1-y)) for y from idx down to 0. -/
noncomputable def invQftCalls (reg : List ℕ) : List (Call ℂ) :=
  (List.range reg.length).flatMap fun idx =>
    Call.app1 HGate (reg.getD idx 0) none ::
      (if idx ≠ reg.length - 1 then
        (List.range (idx + 1)).reverse.map fun y =>
          Call.appc (U1 (-(Real.pi / 2 ^ (idx + 1 - y))))
            (.pos (reg.getD (idx + 1) 0)) (reg.getD y 0)
            (some (-(Real.pi / 2 ^ (idx + 1 - y))))
      else [])

/-- qc.qft. -/
noncomputable def qc.qft (c : qc ℂ) (reg : List ℕ) (with_swaps : Bool) :
    qc ℂ × Option Err :=
  execCalls c (qftCalls reg ++ if with_swaps then flipCalls ℂ reg else [])

/-- qc.inverse_qft. -/
noncomputable def qc.inverse_qft (c : qc ℂ) (reg : List ℕ)
    (with_swaps : Bool) : qc ℂ × Option Err :=
  execCalls c ((if with_swaps then flipCalls ℂ reg else []) ++ invQftCalls reg)

/-- qc.u1. -/
noncomputable def qc.u1 (c : qc ℂ) (idx : ℕ) (v : ℝ) : qc ℂ × Option Err :=
  qc.apply1 c (U1 v) idx (some v)

/-- The call replaying one recorded node, as qc.qc does at offset 0. -/
def Node.toCall : Node R → Call R
  | .single i g v => Call.app1 g i v
  | .ctl cq i g v => Call.appc g (.pos cq) i v

/-- The python truthiness dance of qc.inverse on the stored parameter:
the negated parameter is kept only when the original was present and
non-zero; a parameter equal to 0.0 is dropped to None. -/
noncomputable def negVal : Option ℝ → Option ℝ
  | none => none
  | some v => if v = 0 then none else some (-v)

/-- The call qc.inverse issues for one recorded node: the adjoint
operator at the same indices with the negated-or-dropped parameter. -/
noncomputable def Node.invCall : Node R → Call R
  | .single i g v => Call.app1 gᴴ i (negVal v)
  | .ctl cq i g v => Call.appc gᴴ (.pos cq) i (negVal v)

/-- qc.inverse: replay the reversed IR with adjoint operators and negated
parameters into a fresh non-eager circuit and return that circuit. -/
noncomputable def qc.inverse (c : qc R) : qc R :=
  (execCalls
    ({ nbits := 0, psi := fun _ => 1, ir := [], eager := false,
       build_ir := true } : qc R)
    (c.ir.reverse.map Node.invCall)).1

/-- qc.run: save the two mode flags, replay the own IR with build_ir off
and eager on, then restore the flags; a failure mid-replay propagates
before the flags are restored, as in the python code. -/
def qc.run (c : qc R) : qc R × Option Err :=
  match execCalls { c with build_ir := false, eager := true }
      (c.ir.map Node.toCall) with
  | (c2, none) => ({ c2 with build_ir := c.build_ir, eager := c.eager }, none)
  | (c2, some e) => (c2, some e)

/-- qc.invert as written: the local helper swap_bits takes two parameters
but the loop body calls it with three arguments, so python raises a
TypeError on the first IR node; with an empty IR the loop body never runs
and nothing happens.  No node and no register entry is ever modified. -/
def qc.invert (c : qc R) (_reg : List ℕ) : qc R × Option Err :=
  match c.ir with
  | [] => (c, none)
  | _ :: _ => (c, some Err.typeError)

/-- qc.control_by: on a non-eager circuit, rewrite the IR, turning every
single-target node into a node controlled by ctl (the to_ctl promotion,
Modelled from the spec) and replacing every controlled node by the IR a
transient non-eager sub-circuit records for
multi_control([ctl, node ctl], node target, None, node gate); on an eager
circuit the precondition assertion fails. -/
def qc.control_by (sm : Mat2 R → Mat2 R) (c : qc R) (ctl : ℕ) :
    qc R × Option Err :=
  if c.eager then (c, some Err.precondition)
  else
    ({ c with
        ir := c.ir.flatMap fun nd =>
          match nd with
          | .single i g v => [Node.ctl ctl i g v]
          | .ctl cq i g _v =>
              (qc.multi_control sm
                ({ nbits := 0, psi := fun _ => 1, ir := [], eager := false,
                   build_ir := true } : qc R)
                [CtlArg.pos ctl, CtlArg.pos cq] i [] g).1.ir },
      none)

/-- The pure state transformer of one gate call (the eager effect). -/
def applyCall : Call R → QState R → QState R
  | .app1 g i _ => apply1K g i
  | .appc g ct i _ =>
      match ct with
      | .pos q => applycK g q i
      | .neg q => fun ψ =>
          apply1K (XGate R) q (applycK g q i (apply1K (XGate R) q ψ))

/-- The pure state transformer of a straight-line call sequence. -/
def applyCalls : List (Call R) → QState R → QState R
  | [], ψ => ψ
  | k :: ks, ψ => applyCalls ks (applyCall k ψ)

@[simp] theorem applyCalls_nil (ψ : QState R) : applyCalls [] ψ = ψ := rfl

@[simp] theorem applyCalls_cons (k : Call R) (ks : List (Call R))
    (ψ : QState R) : applyCalls (k :: ks) ψ = applyCalls ks (applyCall k ψ) :=
  rfl

/-- All qubit indices a call touches are below the bound. -/
def CallOk (n : ℕ) : Call R → Prop
  | .app1 _ i _ => i < n
  | .appc _ ct i _ => i < n ∧ ct.qubit < n

/-- The IR nodes one call records when build_ir is on. -/
def irOfCall : Call R → List (Node R)
  | .app1 g i v => [Node.single i g v]
  | .appc g (.pos q) i v => [Node.ctl q i g v]
  | .appc g (.neg q) i v =>
      [Node.single q (XGate R) none, Node.ctl q i g v,
       Node.single q (XGate R) none]

/-- The IR nodes a call sequence records when build_ir is on. -/
def irOfCalls (L : List (Call R)) : List (Node R) := L.flatMap irOfCall

@[simp] theorem irOfCalls_nil : irOfCalls ([] : List (Call R)) = [] := rfl

@[simp] theorem irOfCalls_cons (k : Call R) (ks : List (Call R)) :
    irOfCalls (k :: ks) = irOfCall k ++ irOfCalls ks := rfl

/-- The pointwise phase factor of one controlled U1 gate. -/
noncomputable def u1p (θ : ℝ) (c t : ℕ) (b : ℕ → Bool) : ℂ :=
  if b c && b t then Complex.exp (θ * Complex.I) else 1

/-- A concrete eager circuit on eight qubits used by the witnesses. -/
noncomputable def cEx : qc ℂ :=
  { nbits := 8, psi := fun _ => 1, ir := [], eager := true,
    build_ir := false }

/-- All qubit indices a node references are below the bound. -/
def NodeOk (n : ℕ) : Node R → Prop
  | .single i _ _ => i < n
  | .ctl cq i _ _ => i < n ∧ cq < n

/-- A concrete non-eager recording circuit holding one single node and
one controlled node, used by the witnesses. -/
noncomputable def cRec : qc ℂ :=
  { nbits := 0, psi := fun _ => 1,
    ir := [Node.single 0 (XGate ℂ) none, Node.ctl 0 1 (XGate ℂ) none],
    eager := false, build_ir := true }

/-- A concrete one-qubit circuit with one recorded in-range node, used by
the witnesses. -/
noncomputable def cRun : qc ℂ :=
  { nbits := 1, psi := fun _ => 1, ir := [Node.single 0 (XGate ℂ) none],
    eager := false, build_ir := true }

/-- The transformation qc.inverse performs on one recorded node: adjoint
operator, same indices, parameter negated when present and non-zero,
dropped otherwise. -/
noncomputable def Node.invNode : Node R → Node R
  | .single i g v => .single i gᴴ (negVal v)
  | .ctl cq i g v => .ctl cq i gᴴ (negVal v)

/-- The operator a node carries. -/
def Node.gateOf : Node R → Mat2 R
  | .single _ g _ => g
  | .ctl _ _ g _ => g

/-- A controlled node whose control differs from its target (true of
every node the gate vocabulary records). -/
def Node.distinctCtl : Node R → Prop
  | .single _ _ _ => True
  | .ctl cq i _ _ => cq ≠ i

/-- Replaying a node list against a state, as qc.qc at offset 0 does. -/
def applyNodes (L : List (Node R)) (ψ : QState R) : QState R :=
  applyCalls (L.map Node.toCall) ψ

/-- The recording circuit after qc.u1(0, 0.0): one u1 node with the
stored parameter 0.0. -/
noncomputable def cZeroRot : qc ℂ := (qc.u1 (qc.init ℂ false false) 0 0).1

/-- The rotation run the highest qubit contributes to the QFT of an
extended register. -/
noncomputable def qftRotNew (l : List ℕ) (q : ℕ) : List (Call ℂ) :=
  (List.range l.length).reverse.map fun j =>
    Call.appc (U1 (Real.pi / 2 ^ (l.length - j))) (.pos q) (l.getD j 0)
      (some (Real.pi / 2 ^ (l.length - j)))

/-- The rotation run the highest qubit contributes to the inverse QFT of
an extended register. -/
noncomputable def invRotNew (l : List ℕ) (q : ℕ) : List (Call ℂ) :=
  (List.range l.length).reverse.map fun y =>
    Call.appc (U1 (-(Real.pi / 2 ^ (l.length - y)))) (.pos q) (l.getD y 0)
      (some (-(Real.pi / 2 ^ (l.length - y))))

open Classical in
/-- The basis state with amplitude one at the bit assignment x. -/
noncomputable def basis (x : ℕ → Bool) : QState ℂ :=
  fun b => if b = x then 1 else 0

/-- The classical permutation realized by a doubly-controlled X. -/
def ccxP (c0 c1 t : ℕ) (b : ℕ → Bool) : ℕ → Bool :=
  if b c0 && b c1 then Function.update b t (!(b t)) else b

/-- The ancilla chain contents during qc.multi_control: position a j
holds the conjunction value A j after step j of the compute ladder. -/
noncomputable def zChain (x : ℕ → Bool) (a : ℕ → ℕ) (A : ℕ → Bool) :
    ℕ → (ℕ → Bool)
  | 0 => Function.update x (a 0) (A 0)
  | j + 1 => Function.update (zChain x a A j) (a (j + 1)) (A (j + 1))

/-- The conjunction of the first j+2 control bits, with the first two
controls named explicitly. -/
def andPre (x : ℕ → Bool) (γ0 γ1 : ℕ) (δ : List ℕ) (j : ℕ) : Bool :=
  x γ0 && x γ1 && (δ.take j).all x

/-- One rung of the compute ladder of qc.multi_control. -/
def ladderStep (sm : Mat2 ℂ → Mat2 ℂ) (δ : List ℕ) (a : ℕ → ℕ) (j : ℕ) :
    List (Call ℂ) :=
  ccxCalls sm (.pos (δ.getD j 0)) (.pos (a j)) (a (j + 1))

/-- A concrete eager circuit on 6 qubits holding the basis state with
qubits 0, 1, 2 set and qubits 3, 4, 5 clear, used by the C3 witness. -/
noncomputable def cC3 : qc ℂ :=
  { nbits := 6, psi := basis (fun q => decide (q < 3)), ir := [],
    eager := true, build_ir := false }

theorem applyCalls_append (A B : List (Call R)) (ψ : QState R) :
    applyCalls (A ++ B) ψ = applyCalls B (applyCalls A ψ) := by
  induction A generalizing ψ with
  | nil => rfl
  | cons k ks ih => simp [applyCalls, ih]

theorem irOfCalls_append (A B : List (Call R)) :
    irOfCalls (A ++ B) = irOfCalls A ++ irOfCalls B := by
  simp [irOfCalls]

theorem cond_append_cond {b : Bool} (x y : List (Node R)) :
    cond b x [] ++ cond b y [] = cond b (x ++ y) [] := by
  cases b <;> simp

theorem apply1_eager (c : qc R) (g : Mat2 R) (i : ℕ) (v : Option ℝ)
    (he : c.eager = true) (hi : i < c.nbits) :
    qc.apply1 c g i v =
      ({ c with
          psi := apply1K g i c.psi,
          ir := c.ir ++ cond c.build_ir [Node.single i g v] [] }, none) := by
  cases hb : c.build_ir <;> simp [qc.apply1, he, hi, hb]

theorem applycCore_eager (c : qc R) (g : Mat2 R) (cq i : ℕ) (v : Option ℝ)
    (he : c.eager = true) (hi : i < c.nbits) (hc : cq < c.nbits) :
    qc.applycCore c g cq i v =
      ({ c with
          psi := applycK g cq i c.psi,
          ir := c.ir ++ cond c.build_ir [Node.ctl cq i g v] [] }, none) := by
  cases hb : c.build_ir <;> simp [qc.applycCore, he, hi, hc, hb]

theorem execCall_eager (c : qc R) (k : Call R) (he : c.eager = true)
    (hk : CallOk c.nbits k) :
    execCall c k =
      ({ c with
          psi := applyCall k c.psi,
          ir := c.ir ++ cond c.build_ir (irOfCall k) [] }, none) := by
  cases k with
  | app1 g i v =>
      exact apply1_eager c g i v he hk
  | appc g ct i v =>
      obtain ⟨hi, hq⟩ := hk
      cases ct with
      | pos q =>
          simpa [execCall, qc.applyc, applyCall, irOfCall] using
            applycCore_eager c g q i v he hi hq
      | neg q =>
          have h1 := apply1_eager c (XGate R) q none he hq
          simp only [execCall, qc.applyc, h1, seqE]
          have h2 := applycCore_eager
            ({ c with
                psi := apply1K (XGate R) q c.psi,
                ir := c.ir ++ cond c.build_ir [Node.single q (XGate R) none] [] })
            g q i v he hi hq
          simp only [h2, seqE]
          have h3 := apply1_eager
            ({ c with
                psi := applycK g q i (apply1K (XGate R) q c.psi),
                ir := (c.ir ++ cond c.build_ir [Node.single q (XGate R) none] [])
                  ++ cond c.build_ir [Node.ctl q i g v] [] })
            (XGate R) q none he hq
          simp only [h3]
          simp [applyCall, irOfCall, List.append_assoc, cond_append_cond]

theorem execCalls_eager (c : qc R) (L : List (Call R)) (he : c.eager = true)
    (hok : ∀ k ∈ L, CallOk c.nbits k) :
    execCalls c L =
      ({ c with
          psi := applyCalls L c.psi,
          ir := c.ir ++ cond c.build_ir (irOfCalls L) [] }, none) := by
  induction L generalizing c with
  | nil =>
      obtain ⟨n, ψ0, ir0, e, b⟩ := c
      cases b <;> simp [execCalls]
  | cons k ks ih =>
      have hk : CallOk c.nbits k := hok k (List.mem_cons_self k ks)
      have h1 := execCall_eager c k he hk
      simp only [execCalls, h1, seqE]
      have h2 := ih
        ({ c with
            psi := applyCall k c.psi,
            ir := c.ir ++ cond c.build_ir (irOfCall k) [] })
        he (fun j hj => hok j (List.mem_cons_of_mem k hj))
      simp only [h2]
      simp [List.append_assoc, cond_append_cond]

theorem apply1_record (c : qc R) (g : Mat2 R) (i : ℕ) (v : Option ℝ)
    (he : c.eager = false) :
    qc.apply1 c g i v =
      ({ c with ir := c.ir ++ cond c.build_ir [Node.single i g v] [] }, none) := by
  obtain ⟨n, ψ0, ir0, e, b⟩ := c
  subst he
  cases b <;> simp [qc.apply1]

theorem applycCore_record (c : qc R) (g : Mat2 R) (cq i : ℕ) (v : Option ℝ)
    (he : c.eager = false) :
    qc.applycCore c g cq i v =
      ({ c with ir := c.ir ++ cond c.build_ir [Node.ctl cq i g v] [] }, none) := by
  obtain ⟨n, ψ0, ir0, e, b⟩ := c
  subst he
  cases b <;> simp [qc.applycCore]

theorem execCall_record (c : qc R) (k : Call R) (he : c.eager = false) :
    execCall c k =
      ({ c with ir := c.ir ++ cond c.build_ir (irOfCall k) [] }, none) := by
  cases k with
  | app1 g i v => exact apply1_record c g i v he
  | appc g ct i v =>
      cases ct with
      | pos q =>
          simpa [execCall, qc.applyc, irOfCall] using
            applycCore_record c g q i v he
      | neg q =>
          have h1 := apply1_record c (XGate R) q none he
          simp only [execCall, qc.applyc, h1, seqE]
          have h2 := applycCore_record
            ({ c with ir := c.ir ++ cond c.build_ir [Node.single q (XGate R) none] [] })
            g q i v he
          simp only [h2, seqE]
          have h3 := apply1_record
            ({ c with ir := (c.ir ++ cond c.build_ir [Node.single q (XGate R) none] [])
                  ++ cond c.build_ir [Node.ctl q i g v] [] })
            (XGate R) q none he
          simp only [h3]
          simp [irOfCall, List.append_assoc, cond_append_cond]

theorem execCalls_record (c : qc R) (L : List (Call R)) (he : c.eager = false) :
    execCalls c L =
      ({ c with ir := c.ir ++ cond c.build_ir (irOfCalls L) [] }, none) := by
  induction L generalizing c with
  | nil =>
      obtain ⟨n, ψ0, ir0, e, b⟩ := c
      cases b <;> simp [execCalls]
  | cons k ks ih =>
      have h1 := execCall_record c k he
      simp only [execCalls, h1, seqE]
      have h2 := ih ({ c with ir := c.ir ++ cond c.build_ir (irOfCall k) [] }) he
      simp only [h2]
      simp [List.append_assoc, cond_append_cond]

@[simp] theorem bIdx_false : bIdx false = 0 := rfl

@[simp] theorem bIdx_true : bIdx true = 1 := rfl

theorem apply1K_congr {g : Mat2 R} {t : ℕ} {ψ φ : QState R} {b : ℕ → Bool}
    (h0 : ψ (Function.update b t false) = φ (Function.update b t false))
    (h1 : ψ (Function.update b t true) = φ (Function.update b t true)) :
    apply1K g t ψ b = apply1K g t φ b := by
  simp [apply1K, h0, h1]

theorem apply1K_apply1K (g' g : Mat2 R) (t : ℕ) (ψ : QState R) :
    apply1K g' t (apply1K g t ψ) = apply1K (g' * g) t ψ := by
  funext b
  simp only [apply1K, Function.update_idem, Function.update_same,
    Matrix.mul_apply, Fin.sum_univ_two, bIdx_false, bIdx_true]
  ring

theorem apply1K_one (t : ℕ) (ψ : QState R) : apply1K (1 : Mat2 R) t ψ = ψ := by
  funext b
  cases hbt : b t <;> simp [apply1K, Matrix.one_apply, hbt] <;>
    rw [← hbt, Function.update_eq_self]

theorem applycK_true {g : Mat2 R} {c t : ℕ} {ψ : QState R} {b : ℕ → Bool}
    (hbc : b c = true) : applycK g c t ψ b = apply1K g t ψ b := by
  simp [applycK, hbc]

theorem applycK_false {g : Mat2 R} {c t : ℕ} {ψ : QState R} {b : ℕ → Bool}
    (hbc : b c = false) : applycK g c t ψ b = ψ b := by
  simp [applycK, hbc]

theorem applycK_applycK (g' g : Mat2 R) (c t : ℕ) (hct : c ≠ t)
    (ψ : QState R) :
    applycK g' c t (applycK g c t ψ) = applycK (g' * g) c t ψ := by
  funext b
  by_cases hbc : b c
  · rw [applycK_true hbc, applycK_true hbc,
      apply1K_congr (g := g')
        (applycK_true (by simp [Function.update_noteq hct, hbc]))
        (applycK_true (by simp [Function.update_noteq hct, hbc]))]
    exact congrFun (apply1K_apply1K g' g t ψ) b
  · have hbc' : b c = false := by simpa using hbc
    rw [applycK_false hbc', applycK_false hbc', applycK_false hbc']

theorem applycK_one (c t : ℕ) (ψ : QState R) :
    applycK (1 : Mat2 R) c t ψ = ψ := by
  funext b
  by_cases hbc : b c
  · rw [applycK_true (by simpa using hbc)]
    exact congrFun (apply1K_one t ψ) b
  · exact applycK_false (by simpa using hbc)

theorem apply1K_X (t : ℕ) (ψ : QState R) :
    apply1K (XGate R) t ψ = fun b => ψ (Function.update b t (!(b t))) := by
  funext b
  cases hbt : b t <;> simp [apply1K, XGate, hbt]

theorem cnotK (c t : ℕ) (ψ : QState R) :
    applycK (XGate R) c t ψ =
      fun b => if b c then ψ (Function.update b t (!(b t))) else ψ b := by
  funext b
  by_cases hbc : b c
  · rw [applycK_true (by simpa using hbc)]
    simp [apply1K_X, hbc]
  · have hbc' : b c = false := by simpa using hbc
    rw [applycK_false hbc']
    simp [hbc']

theorem update_eq_self_of (f : ℕ → Bool) (a : ℕ) (v : Bool) (h : f a = v) :
    Function.update f a v = f := by
  rw [← h]
  exact Function.update_eq_self a f

theorem apply1K_eval_eq {g : Mat2 R} {t : ℕ} {Φ Ψ : QState R} {y z : ℕ → Bool}
    (ht : y t = z t)
    (h0 : Φ (Function.update y t false) = Ψ (Function.update z t false))
    (h1 : Φ (Function.update y t true) = Ψ (Function.update z t true)) :
    apply1K g t Φ y = apply1K g t Ψ z := by
  simp [apply1K, ht, h0, h1]

/-- The Sleator-Weinfurter sequence of qc.ccu acts as the doubly
controlled operator: controlled V on the target, cx, controlled V
adjoint, cx, controlled V equals, on every state, the map applying the
operator on the target exactly when both control bits are 1. -/
theorem sleator (V u : Mat2 R) (hVV : V * V = u) (hL : Vᴴ * V = 1)
    (hR : V * Vᴴ = 1) (c0 c1 t : ℕ) (h01 : c0 ≠ c1) (h0t : c0 ≠ t)
    (h1t : c1 ≠ t) (ψ : QState R) :
    applycK V c1 t (applycK (XGate R) c0 c1 (applycK Vᴴ c1 t
      (applycK (XGate R) c0 c1 (applycK V c0 t ψ)))) =
      fun b => if b c0 && b c1 then apply1K u t ψ b else ψ b := by
  funext b
  have r0 : ∀ v, Function.update b t v c0 = b c0 :=
    fun v => Function.update_noteq h0t v b
  have r1 : ∀ v, Function.update b t v c1 = b c1 :=
    fun v => Function.update_noteq h1t v b
  have innerN : ∀ x : ℕ → Bool, x c0 = true → x c1 = true →
      (applycK (XGate R) c0 c1 (applycK V c0 t ψ)) x =
        apply1K V t ψ (Function.update x c1 false) := by
    intro x hx0 hx1
    rw [applycK_true hx0]
    simp only [apply1K_X]
    rw [hx1]
    simp only [Bool.not_true]
    rw [applycK_true (by rw [Function.update_noteq h01]; exact hx0)]
  have innerTT : ∀ x : ℕ → Bool, x c0 = true → x c1 = true →
      (applycK (XGate R) c0 c1 (applycK Vᴴ c1 t
        (applycK (XGate R) c0 c1 (applycK V c0 t ψ)))) x =
        apply1K V t ψ x := by
    intro x hx0 hx1
    rw [applycK_true hx0]
    simp only [apply1K_X]
    rw [hx1]
    simp only [Bool.not_true]
    rw [applycK_false (Function.update_same c1 false x)]
    rw [applycK_true (by rw [Function.update_noteq h01]; exact hx0)]
    simp only [apply1K_X]
    rw [Function.update_same]
    simp only [Bool.not_false]
    rw [Function.update_idem, update_eq_self_of x c1 true hx1]
    rw [applycK_true hx0]
  cases hb0 : b c0 <;> cases hb1 : b c1
  · -- both control bits 0: every stage is skipped
    rw [applycK_false hb1, applycK_false hb0, applycK_false hb1,
      applycK_false hb0, applycK_false hb0]
    simp
  · -- control bits (0, 1): V adjoint then V act on the target
    rw [applycK_true hb1]
    have h₁ : apply1K V t (applycK (XGate R) c0 c1 (applycK Vᴴ c1 t
        (applycK (XGate R) c0 c1 (applycK V c0 t ψ)))) b =
        apply1K V t (apply1K Vᴴ t ψ) b := by
      refine apply1K_eval_eq rfl ?_ ?_ <;>
      · rw [applycK_false (by rw [r0]; exact hb0),
          applycK_true (by rw [r1]; exact hb1)]
        refine apply1K_eval_eq rfl ?_ ?_ <;>
        · rw [Function.update_idem,
            applycK_false (by rw [r0]; exact hb0),
            applycK_false (by rw [r0]; exact hb0)]
    rw [h₁, apply1K_apply1K, hR, apply1K_one]
    simp
  · -- control bits (1, 0): the cx pair routes V and V adjoint
    rw [applycK_false hb1, applycK_true hb0]
    simp only [apply1K_X]
    rw [hb1]
    simp only [Bool.not_false]
    rw [applycK_true (Function.update_same c1 true b)]
    have h₁ : apply1K Vᴴ t (applycK (XGate R) c0 c1 (applycK V c0 t ψ))
        (Function.update b c1 true) = apply1K Vᴴ t (apply1K V t ψ) b := by
      refine apply1K_eval_eq (Function.update_noteq (Ne.symm h1t) true b) ?_ ?_ <;>
      · rw [innerN _
          (by rw [Function.update_noteq h0t, Function.update_noteq h01]; exact hb0)
          (by rw [Function.update_noteq h1t]; exact Function.update_same c1 true b)]
        rw [Function.update_comm (Ne.symm h1t), Function.update_idem,
          update_eq_self_of b c1 false hb1]
    rw [h₁, apply1K_apply1K, hL, apply1K_one]
    simp
  · -- both control bits 1: V twice gives the operator
    rw [applycK_true hb1]
    have h₁ : apply1K V t (applycK (XGate R) c0 c1 (applycK Vᴴ c1 t
        (applycK (XGate R) c0 c1 (applycK V c0 t ψ)))) b =
        apply1K V t (apply1K V t ψ) b :=
      apply1K_congr
        (innerTT (Function.update b t false) (by rw [r0]; exact hb0)
          (by rw [r1]; exact hb1))
        (innerTT (Function.update b t true) (by rw [r0]; exact hb0)
          (by rw [r1]; exact hb1))
    rw [h₁, apply1K_apply1K, hVV]
    simp

theorem sqrtX_mul_sqrtX : sqrtX * sqrtX = XGate ℂ := by
  ext i j
  fin_cases i <;> fin_cases j <;>
    simp [sqrtX, XGate, Matrix.mul_apply, Fin.sum_univ_two] <;>
    ring_nf <;>
    simp [Complex.I_sq] <;>
    ring

theorem sqrtX_star_mul : sqrtXᴴ * sqrtX = 1 := by
  ext i j
  fin_cases i <;> fin_cases j <;>
    simp [sqrtX, Matrix.conjTranspose_apply, Matrix.mul_apply,
      Fin.sum_univ_two, Matrix.one_apply, Complex.star_def, map_div₀,
      map_add, map_sub, map_ofNat, Complex.conj_I] <;>
    ring_nf <;>
    simp [Complex.I_sq] <;>
    ring

theorem sqrtX_mul_star : sqrtX * sqrtXᴴ = 1 := by
  ext i j
  fin_cases i <;> fin_cases j <;>
    simp [sqrtX, Matrix.conjTranspose_apply, Matrix.mul_apply,
      Fin.sum_univ_two, Matrix.one_apply, Complex.star_def, map_div₀,
      map_add, map_sub, map_ofNat, Complex.conj_I] <;>
    ring_nf <;>
    simp [Complex.I_sq] <;>
    ring

theorem HGate_mul_HGate : HGate * HGate = 1 := by
  have hne : Real.sqrt 2 ≠ 0 := by positivity
  ext i j
  fin_cases i <;> fin_cases j <;>
    simp [HGate, Matrix.mul_apply, Fin.sum_univ_two, Matrix.one_apply] <;>
    norm_cast <;> field_simp

/-- A controlled U1 gate is a pointwise multiplier on amplitudes. -/
theorem applycK_U1 (θ : ℝ) (c t : ℕ) (ψ : QState ℂ) :
    applycK (U1 θ) c t ψ = fun b => u1p θ c t b * ψ b := by
  funext b
  by_cases hbc : b c
  · rw [applycK_true (by simpa using hbc)]
    cases hbt : b t
    · simp [apply1K, U1, u1p, hbc, hbt, update_eq_self_of b t false hbt]
    · simp [apply1K, U1, u1p, hbc, hbt, update_eq_self_of b t true hbt]
  · have hbc' : b c = false := by simpa using hbc
    rw [applycK_false hbc']
    simp [u1p, hbc']

theorem u1p_neg_mul (θ : ℝ) (c t : ℕ) (b : ℕ → Bool) :
    u1p (-θ) c t b * u1p θ c t b = 1 := by
  by_cases h : b c && b t <;>
    simp [u1p, h, ← Complex.exp_add]

theorem applyCalls_ccu_pos (sm : Mat2 R → Mat2 R) (c0 c1 t : ℕ)
    (u : Mat2 R) (ψ : QState R) :
    applyCalls (ccuCalls sm (.pos c0) (.pos c1) t u) ψ =
      applycK (sm u) c1 t (applycK (XGate R) c0 c1 (applycK (sm u)ᴴ c1 t
        (applycK (XGate R) c0 c1 (applycK (sm u) c0 t ψ)))) := by
  simp [ccuCalls, xIf, applyCalls, applyCall, CtlArg.qubit]

/-- C1: for a 2x2 unitary U whose principal square root V satisfies
V V = U, qc.ccu emits exactly the Sleator-Weinfurter sequence (V
controlled by the first control on the target, cx, V adjoint controlled
by the second control, cx, V controlled by the second control, with
one-element-list controls bracketed by X around the whole sequence), and
for U = X the eager execution realizes the exact Toffoli truth table,
leaving both control qubits unchanged. -/
theorem claim_C1 (sm : Mat2 ℂ → Mat2 ℂ) (u : Mat2 ℂ)
    (hsq : sm u * sm u = u) :
    (∀ (a b : CtlArg) (t : ℕ),
      ccuCalls sm a b t u =
        xIf ℂ a ++ xIf ℂ b ++
          [Call.appc (sm u) (.pos a.qubit) t none,
           Call.appc (XGate ℂ) (.pos a.qubit) b.qubit none,
           Call.appc (sm u)ᴴ (.pos b.qubit) t none,
           Call.appc (XGate ℂ) (.pos a.qubit) b.qubit none,
           Call.appc (sm u) (.pos b.qubit) t none] ++ xIf ℂ b ++ xIf ℂ a) ∧
    (sm (XGate ℂ) = sqrtX →
      ∀ (c : qc ℂ) (c0 c1 t : ℕ), c0 ≠ c1 → c0 ≠ t → c1 ≠ t →
        c.eager = true → c0 < c.nbits → c1 < c.nbits → t < c.nbits →
        (qc.ccu sm c (.pos c0) (.pos c1) t (XGate ℂ)).2 = none ∧
        (qc.ccu sm c (.pos c0) (.pos c1) t (XGate ℂ)).1.psi =
          fun b => if b c0 && b c1 then
              c.psi (Function.update b t (!(b t)))
            else c.psi b) := by
  refine ⟨fun a b t => rfl, fun hsm c c0 c1 t h01 h0t h1t he hc0 hc1 ht => ?_⟩
  have hok : ∀ k ∈ ccuCalls sm (.pos c0) (.pos c1) t (XGate ℂ),
      CallOk c.nbits k := by
    intro k hk
    simp [ccuCalls, xIf] at hk
    rcases hk with h | h | h | h | h <;> subst h <;>
      exact ⟨by assumption, by assumption⟩
  rw [qc.ccu, execCalls_eager c _ he hok]
  refine ⟨rfl, ?_⟩
  have hchain := applyCalls_ccu_pos sm c0 c1 t (XGate ℂ) c.psi
  rw [hsm] at hchain
  show applyCalls (ccuCalls sm (.pos c0) (.pos c1) t (XGate ℂ)) c.psi = _
  rw [hchain,
    sleator sqrtX (XGate ℂ) sqrtX_mul_sqrtX sqrtX_star_mul sqrtX_mul_star
      c0 c1 t h01 h0t h1t c.psi]
  funext b
  by_cases hb : b c0 && b c1 <;> simp [hb, apply1K_X]

theorem claim_C1_witness :
    (qc.ccu (fun _ => sqrtX) cEx (.pos 0) (.pos 1) 2 (XGate ℂ)).2 = none ∧
    (qc.ccu (fun _ => sqrtX) cEx (.pos 0) (.pos 1) 2 (XGate ℂ)).1.psi =
      fun b => if b 0 && b 1 then
          cEx.psi (Function.update b 2 (!(b 2)))
        else cEx.psi b :=
  (claim_C1 (fun _ => sqrtX) (XGate ℂ) sqrtX_mul_sqrtX).2 rfl cEx 0 1 2
    (by decide) (by decide) (by decide) rfl (by decide) (by decide)
    (by decide)

/-- C7: an eager gate application through qc.apply1 or qc.applyc whose
target index, or whose control index, is at least the current qubit count
fails with the index condition at the point of gate application, leaving
the state untouched. -/
theorem claim_C7 :
    (∀ (c : qc ℂ) (g : Mat2 ℂ) (i : ℕ) (v : Option ℝ), c.eager = true →
      c.nbits ≤ i →
      (qc.apply1 c g i v).2 = some Err.index ∧
      (qc.apply1 c g i v).1.psi = c.psi) ∧
    (∀ (c : qc ℂ) (g : Mat2 ℂ) (q i : ℕ) (v : Option ℝ), c.eager = true →
      c.nbits ≤ i →
      (qc.applyc c g (.pos q) i v).2 = some Err.index ∧
      (qc.applyc c g (.pos q) i v).1.psi = c.psi) ∧
    (∀ (c : qc ℂ) (g : Mat2 ℂ) (q i : ℕ) (v : Option ℝ), c.eager = true →
      i < c.nbits → c.nbits ≤ q →
      (qc.applyc c g (.pos q) i v).2 = some Err.index ∧
      (qc.applyc c g (.pos q) i v).1.psi = c.psi) := by
  refine ⟨fun c g i v he hi => ?_, fun c g q i v he hi => ?_,
    fun c g q i v he hi hq => ?_⟩
  · cases hb : c.build_ir <;>
      simp [qc.apply1, he, hb, Nat.not_lt.mpr hi]
  · cases hb : c.build_ir <;>
      simp [qc.applyc, qc.applycCore, he, hb, Nat.not_lt.mpr hi]
  · cases hb : c.build_ir <;>
      simp [qc.applyc, qc.applycCore, he, hb, hi, Nat.not_lt.mpr hq]

theorem claim_C7_witness :
    ((qc.apply1 cEx (XGate ℂ) 9 none).2 = some Err.index ∧
      (qc.apply1 cEx (XGate ℂ) 9 none).1.psi = cEx.psi) ∧
    ((qc.applyc cEx (XGate ℂ) (.pos 9) 0 none).2 = some Err.index ∧
      (qc.applyc cEx (XGate ℂ) (.pos 9) 0 none).1.psi = cEx.psi) :=
  ⟨claim_C7.1 cEx (XGate ℂ) 9 none rfl (by decide),
   claim_C7.2.2 cEx (XGate ℂ) 9 0 none rfl (by decide) (by decide)⟩

/-- C9 counterexample: no constructible circuit instance has both mode
flags set for the same gate call; for each of the four constructor
argument combinations, eager and build_ir are never both true, because
the constructor always sets build_ir to the negation of the eager
argument. -/
theorem claim_C9_counterexample :
    ((qc.init ℂ true false).eager && (qc.init ℂ true false).build_ir)
        = false ∧
    ((qc.init ℂ false false).eager && (qc.init ℂ false false).build_ir)
        = false ∧
    ((qc.init ℂ true true).eager && (qc.init ℂ true true).build_ir)
        = false ∧
    ((qc.init ℂ false true).eager && (qc.init ℂ false true).build_ir)
        = false :=
  ⟨rfl, rfl, rfl, rfl⟩

/-- C9 amended: every gate call appends a node exactly when build_ir is
set and invokes the kernel exactly when eager is set; the constructible
mode combinations are only-eager, only-recording and, when an export flag
forces eager off, neither; no constructible instance has both flags
set. -/
theorem claim_C9_thm :
    (∀ (c : qc ℂ) (g : Mat2 ℂ) (i : ℕ) (v : Option ℝ), i < c.nbits →
      (qc.apply1 c g i v).1.ir =
        (if c.build_ir then c.ir ++ [Node.single i g v] else c.ir) ∧
      (qc.apply1 c g i v).1.psi =
        (if c.eager then apply1K g i c.psi else c.psi) ∧
      (qc.apply1 c g i v).2 = none) ∧
    ((qc.init ℂ true false).eager = true ∧
      (qc.init ℂ true false).build_ir = false) ∧
    ((qc.init ℂ false false).eager = false ∧
      (qc.init ℂ false false).build_ir = true) ∧
    ((qc.init ℂ true true).eager = false ∧
      (qc.init ℂ true true).build_ir = false) ∧
    (∀ e d : Bool,
      ((qc.init ℂ e d).eager && (qc.init ℂ e d).build_ir) = false) := by
  refine ⟨fun c g i v hi => ?_, ⟨rfl, rfl⟩, ⟨rfl, rfl⟩, ⟨rfl, rfl⟩, ?_⟩
  · cases he : c.eager <;> cases hb : c.build_ir <;>
      simp [qc.apply1, he, hb, hi]
  · intro e d
    cases e <;> cases d <;> rfl

theorem claim_C9_witness :
    (qc.apply1 cEx (XGate ℂ) 0 none).1.ir =
      (if cEx.build_ir then cEx.ir ++ [Node.single 0 (XGate ℂ) none]
        else cEx.ir) ∧
    (qc.apply1 cEx (XGate ℂ) 0 none).1.psi =
      (if cEx.eager then apply1K (XGate ℂ) 0 cEx.psi else cEx.psi) ∧
    (qc.apply1 cEx (XGate ℂ) 0 none).2 = none :=
  claim_C9_thm.1 cEx (XGate ℂ) 0 none (by decide)

/-- C4: the claim is right about the intent, but qc.invert is broken: its
local two-parameter helper swap_bits is called with three arguments, so
the call raises a TypeError on the first recorded node and never remaps
anything. -/
theorem claim_C4 (c : qc ℂ) (reg : List ℕ) (h : c.ir ≠ []) :
    qc.invert c reg = (c, some Err.typeError) := by
  cases hir : c.ir with
  | nil => exact absurd hir h
  | cons nd tl => simp [qc.invert, hir]

theorem claim_C4_witness :
    qc.invert cRec [0, 1] = (cRec, some Err.typeError) :=
  claim_C4 cRec [0, 1] (List.cons_ne_nil _ _)

/-- C5: qc.control_by on a non-eager circuit replaces the IR, turning
every single-target node into a node controlled on the given qubit and
every controlled node into the five-node doubly-controlled sequence a
transient sub-circuit records through qc.multi_control with controls
[ctl, original control]; on an eager circuit it fails with the
precondition condition. -/
theorem claim_C5 (sm : Mat2 ℂ → Mat2 ℂ) :
    (∀ (c : qc ℂ) (q : ℕ), c.eager = true →
      qc.control_by sm c q = (c, some Err.precondition)) ∧
    (∀ (c : qc ℂ) (q : ℕ), c.eager = false →
      qc.control_by sm c q =
        ({ c with
            ir := c.ir.flatMap fun nd =>
              match nd with
              | .single i g v => [Node.ctl q i g v]
              | .ctl cq i g _ =>
                  [Node.ctl q i (sm g) none,
                   Node.ctl q cq (XGate ℂ) none,
                   Node.ctl cq i (sm g)ᴴ none,
                   Node.ctl q cq (XGate ℂ) none,
                   Node.ctl cq i (sm g) none] }, none)) := by
  constructor
  · intro c q he
    simp [qc.control_by, he]
  · intro c q he
    rw [qc.control_by]
    rw [if_neg (by simp [he])]
    refine congrArg (fun L => (({ c with ir := L } : qc ℂ), none)) ?_
    refine congrArg (fun f => c.ir.flatMap f) ?_
    funext nd
    cases nd with
    | single i g v => rfl
    | ctl cq i g v =>
        show (qc.multi_control sm _ [CtlArg.pos q, CtlArg.pos cq] i [] g).1.ir
          = _
        rw [qc.multi_control]
        rw [if_neg (by simp)]
        rw [if_neg (by simp)]
        rw [if_neg (by simp)]
        rw [if_pos rfl]
        rw [execCalls_record _ _ rfl]
        simp [irOfCalls, irOfCall, ccuCalls, xIf, CtlArg.qubit]

theorem claim_C5_witness :
    qc.control_by (fun _ => sqrtX) cEx 2 = (cEx, some Err.precondition) ∧
    qc.control_by (fun _ => sqrtX) cRec 2 =
      ({ cRec with
          ir := cRec.ir.flatMap fun nd =>
            match nd with
            | .single i g v => [Node.ctl 2 i g v]
            | .ctl cq i g _ =>
                [Node.ctl 2 i sqrtX none,
                 Node.ctl 2 cq (XGate ℂ) none,
                 Node.ctl cq i sqrtXᴴ none,
                 Node.ctl 2 cq (XGate ℂ) none,
                 Node.ctl cq i sqrtX none] }, none) :=
  ⟨(claim_C5 (fun _ => sqrtX)).1 cEx 2 rfl,
   (claim_C5 (fun _ => sqrtX)).2 cRec 2 rfl⟩

/-- C8 counterexample: qc.multi_control with three controls and an empty
ancilla list does not fail with the ancilla-count configuration
condition; the truthiness guard skips the assertion and the call fails
with a python list IndexError at the first ladder access instead (still
before any gate is recorded or applied). -/
theorem claim_C8_counterexample :
    (qc.multi_control (fun g => g) cEx [CtlArg.pos 0, CtlArg.pos 1,
        CtlArg.pos 2] 3 [] (XGate ℂ)).2 = some Err.listIndex ∧
    (qc.multi_control (fun g => g) cEx [CtlArg.pos 0, CtlArg.pos 1,
        CtlArg.pos 2] 3 [] (XGate ℂ)).2 ≠ some Err.ancilla := by
  constructor
  · simp [qc.multi_control]
  · simp [qc.multi_control]

/-- C8 amended: with a nonempty ancilla list shorter than the control
count minus one, qc.multi_control fails with the configuration condition
before any gate is recorded or applied, the object unchanged; with an
empty ancilla list and at least three controls, the guarded assertion is
skipped and the call fails with a list index error at the first ladder
access, also before any gate is recorded or applied. -/
theorem claim_C8_thm (sm : Mat2 ℂ → Mat2 ℂ) :
    (∀ (c : qc ℂ) (ctl : List CtlArg) (i : ℕ) (aux : List ℕ) (g : Mat2 ℂ),
      aux ≠ [] → aux.length < ctl.length - 1 →
      qc.multi_control sm c ctl i aux g = (c, some Err.ancilla)) ∧
    (∀ (c : qc ℂ) (ctl : List CtlArg) (i : ℕ) (g : Mat2 ℂ),
      3 ≤ ctl.length →
      qc.multi_control sm c ctl i [] g = (c, some Err.listIndex)) := by
  constructor
  · intro c ctl i aux g h1 h2
    rw [qc.multi_control, if_pos ⟨h1, h2⟩]
  · intro c ctl i g h3
    have h0 : ¬ ctl = [] := by
      intro h0
      rw [h0] at h3
      simp at h3
    have h1 : ¬ ctl.length = 1 := by omega
    have h2 : ¬ ctl.length = 2 := by omega
    rw [qc.multi_control, if_neg (by simp), if_neg h0, if_neg h1, if_neg h2,
      if_pos rfl]

theorem claim_C8_witness :
    qc.multi_control (fun g => g) cEx [CtlArg.pos 0, CtlArg.pos 1,
        CtlArg.pos 2] 3 [4] (XGate ℂ) = (cEx, some Err.ancilla) ∧
    qc.multi_control (fun g => g) cEx [CtlArg.pos 0, CtlArg.pos 1,
        CtlArg.pos 2] 3 [] (XGate ℂ) = (cEx, some Err.listIndex) :=
  ⟨(claim_C8_thm (fun g => g)).1 cEx _ 3 [4] _ (by simp) (by simp),
   (claim_C8_thm (fun g => g)).2 cEx _ 3 _ (by simp)⟩

/-- C10: qc.run applies every recorded IR node to the live state in
order, appends no node, and on (normal) return both mode flags and the
IR equal their values from before the call. -/
theorem claim_C10 (c : qc ℂ) (hok : ∀ nd ∈ c.ir, NodeOk c.nbits nd) :
    qc.run c = ({ c with psi := applyCalls (c.ir.map Node.toCall) c.psi },
      none) := by
  have hok2 : ∀ k ∈ c.ir.map Node.toCall,
      CallOk ({ c with build_ir := false, eager := true } : qc ℂ).nbits k := by
    intro k hk
    rcases List.mem_map.mp hk with ⟨nd, hnd, rfl⟩
    have h := hok nd hnd
    cases nd <;> exact h
  rw [qc.run, execCalls_eager _ _ rfl hok2]
  simp

theorem claim_C10_witness :
    qc.run cRun =
      ({ cRun with psi := applyCalls (cRun.ir.map Node.toCall) cRun.psi },
        none) :=
  claim_C10 cRun (by
    intro nd hnd
    simp only [cRun, List.mem_singleton] at hnd
    subst hnd
    exact Nat.zero_lt_one)

theorem applyNodes_append (A B : List (Node R)) (ψ : QState R) :
    applyNodes (A ++ B) ψ = applyNodes B (applyNodes A ψ) := by
  simp [applyNodes, applyCalls_append]

theorem irOfCalls_invCall (L : List (Node R)) :
    irOfCalls (L.map Node.invCall) = L.map Node.invNode := by
  induction L with
  | nil => rfl
  | cons nd tl ih =>
      cases nd <;> simp [Node.invCall, Node.invNode, irOfCall, ih]

theorem inverse_eq (c : qc R) :
    qc.inverse c =
      { nbits := 0, psi := fun _ => 1,
        ir := c.ir.reverse.map Node.invNode, eager := false,
        build_ir := true } := by
  rw [qc.inverse, execCalls_record _ _ rfl]
  simp only [Bool.cond_true, List.nil_append, irOfCalls_invCall]

theorem applyNode_cancel (nd : Node R)
    (hu : (Node.gateOf nd)ᴴ * Node.gateOf nd = 1) (hd : Node.distinctCtl nd)
    (ψ : QState R) :
    applyCall ((Node.invNode nd).toCall) (applyCall nd.toCall ψ) = ψ := by
  cases nd with
  | single i g v =>
      have hu' : gᴴ * g = 1 := hu
      show apply1K gᴴ i (apply1K g i ψ) = ψ
      rw [apply1K_apply1K, hu', apply1K_one]
  | ctl cq i g v =>
      have hu' : gᴴ * g = 1 := hu
      have hd' : cq ≠ i := hd
      show applycK gᴴ cq i (applycK g cq i ψ) = ψ
      rw [applycK_applycK gᴴ g cq i hd', hu', applycK_one]

theorem applyNodes_inverse (L : List (Node R))
    (hu : ∀ nd ∈ L, (Node.gateOf nd)ᴴ * Node.gateOf nd = 1)
    (hd : ∀ nd ∈ L, Node.distinctCtl nd) (ψ : QState R) :
    applyNodes (L.reverse.map Node.invNode) (applyNodes L ψ) = ψ := by
  induction L generalizing ψ with
  | nil => rfl
  | cons nd tl ih =>
      have h2 : (nd :: tl).reverse.map Node.invNode =
          (tl.reverse.map Node.invNode) ++ [Node.invNode nd] := by simp
      show applyNodes ((nd :: tl).reverse.map Node.invNode)
        (applyNodes tl (applyCall nd.toCall ψ)) = ψ
      rw [h2, applyNodes_append,
        ih (fun x hx => hu x (List.mem_cons_of_mem nd hx))
          (fun x hx => hd x (List.mem_cons_of_mem nd hx))
          (applyCall nd.toCall ψ)]
      exact applyNode_cancel nd (hu nd (List.mem_cons_self nd tl))
        (hd nd (List.mem_cons_self nd tl)) ψ

theorem XGate_star_mul : (XGate ℂ)ᴴ * XGate ℂ = 1 := by
  ext i j
  fin_cases i <;> fin_cases j <;>
    simp [XGate, Matrix.conjTranspose_apply, Matrix.mul_apply,
      Fin.sum_univ_two, Matrix.one_apply]

theorem cZeroRot_ir : cZeroRot.ir = [Node.single 0 (U1 0) (some 0)] := by
  simp [cZeroRot, qc.u1, qc.apply1, qc.init]

/-- C2 counterexample: inversion does not negate every stored parameter.
For the circuit recording u1 with angle 0.0, the python truthiness test
on the parameter drops it, so the inverse node stores no parameter
instead of the negated angle. -/
theorem claim_C2_counterexample :
    (qc.inverse cZeroRot).ir ≠
      cZeroRot.ir.reverse.map fun nd =>
        match nd with
        | Node.single i g v => Node.single i gᴴ (v.map fun x => -x)
        | Node.ctl cq i g v => Node.ctl cq i gᴴ (v.map fun x => -x) := by
  rw [inverse_eq, cZeroRot_ir]
  simp [Node.invNode, negVal]

/-- C2 amended: qc.inverse returns a fresh non-eager recording circuit
whose IR is the reversed IR with every operator replaced by its adjoint
and every stored non-zero parameter negated (a zero or absent parameter
becomes absent); for recorded gate-only circuits of unitary gates with
control distinct from target, replaying the circuit and then its inverse
is the identity on every state, exactly. -/
theorem claim_C2_thm (c : qc ℂ)
    (hu : ∀ nd ∈ c.ir, (Node.gateOf nd)ᴴ * Node.gateOf nd = 1)
    (hd : ∀ nd ∈ c.ir, Node.distinctCtl nd) :
    (qc.inverse c).eager = false ∧
    (qc.inverse c).build_ir = true ∧
    (qc.inverse c).ir = c.ir.reverse.map Node.invNode ∧
    ∀ ψ : QState ℂ, applyNodes ((qc.inverse c).ir) (applyNodes c.ir ψ) = ψ := by
  rw [inverse_eq]
  exact ⟨rfl, rfl, rfl, fun ψ => applyNodes_inverse c.ir hu hd ψ⟩

theorem claim_C2_witness :
    (qc.inverse cRun).eager = false ∧
    (qc.inverse cRun).build_ir = true ∧
    (qc.inverse cRun).ir = cRun.ir.reverse.map Node.invNode ∧
    ∀ ψ : QState ℂ,
      applyNodes ((qc.inverse cRun).ir) (applyNodes cRun.ir ψ) = ψ :=
  claim_C2_thm cRun
    (by
      intro nd hnd
      simp only [cRun, List.mem_singleton] at hnd
      subst hnd
      exact XGate_star_mul)
    (by
      intro nd hnd
      simp only [cRun, List.mem_singleton] at hnd
      subst hnd
      trivial)

theorem getD_append_lt (l : List ℕ) (q d j : ℕ) (hj : j < l.length) :
    (l ++ [q]).getD j d = l.getD j d :=
  List.getD_append l [q] d j hj

theorem getD_append_len (l : List ℕ) (q d : ℕ) :
    (l ++ [q]).getD l.length d = q := by
  induction l with
  | nil => rfl
  | cons a tl ih => simpa using ih

theorem getD_mem (l : List ℕ) (d j : ℕ) (hj : j < l.length) :
    l.getD j d ∈ l := by
  rw [List.getD_eq_getElem l d hj]
  exact List.getElem_mem hj

theorem flatMap_congr {α β : Type} (l : List α) (f g : α → List β)
    (h : ∀ a ∈ l, f a = g a) : l.flatMap f = l.flatMap g := by
  induction l with
  | nil => rfl
  | cons a tl ih =>
      simp only [List.flatMap_cons]
      rw [h a (List.mem_cons_self a tl),
        ih fun x hx => h x (List.mem_cons_of_mem a hx)]

theorem qftCalls_append (l : List ℕ) (q : ℕ) :
    qftCalls (l ++ [q]) =
      (Call.app1 HGate q none :: qftRotNew l q) ++ qftCalls l := by
  unfold qftCalls qftRotNew
  rw [List.length_append]
  simp only [List.length_singleton, List.range_succ, List.reverse_append,
    List.reverse_singleton, List.singleton_append, List.flatMap_cons]
  rw [getD_append_len]
  refine congrArg₂ (fun a b => a ++ b) ?_ ?_
  · refine congrArg (fun r => Call.app1 HGate q none :: r) ?_
    refine List.map_congr_left ?_
    intro j hj
    rw [List.mem_reverse, List.mem_range] at hj
    rw [getD_append_lt l q 0 j hj]
  · refine flatMap_congr _ _ _ ?_
    intro i hi
    rw [List.mem_reverse, List.mem_range] at hi
    rw [getD_append_lt l q 0 i hi]
    refine congrArg (fun r => Call.app1 HGate (l.getD i 0) none :: r) ?_
    refine List.map_congr_left ?_
    intro j hj
    rw [List.mem_reverse, List.mem_range] at hj
    rw [getD_append_lt l q 0 j (by omega)]

theorem invQftCalls_append (l : List ℕ) (q : ℕ) :
    invQftCalls (l ++ [q]) =
      invQftCalls l ++ invRotNew l q ++ [Call.app1 HGate q none] := by
  cases hn : l.length with
  | zero =>
      have hl : l = [] := List.length_eq_zero.mp hn
      subst hl
      simp [invQftCalls, invRotNew, List.range_succ]
  | succ m =>
      unfold invQftCalls invRotNew
      simp only [List.length_append, List.length_singleton]
      rw [List.range_succ, List.flatMap_append]
      simp only [List.flatMap_cons, List.flatMap_nil, List.append_nil]
      rw [getD_append_len]
      simp only [Nat.add_sub_cancel]
      rw [if_neg (by omega)]
      refine congrArg₂ (fun a b => a ++ b) ?_ rfl
      rw [hn, List.range_succ, List.flatMap_append, List.flatMap_append]
      simp only [List.flatMap_cons, List.flatMap_nil, List.append_nil,
        Nat.add_sub_cancel]
      rw [if_pos (show m ≠ m + 1 by omega), if_neg (show ¬ m ≠ m by omega)]
      have hq : (l ++ [q]).getD (m + 1) 0 = q := by
        rw [← hn]
        exact getD_append_len l q 0
      rw [List.range_succ]
      simp only [List.reverse_append, List.reverse_cons, List.reverse_nil,
        List.nil_append, List.singleton_append, List.map_cons]
      rw [hq, getD_append_lt l q 0 m (by omega)]
      rw [List.append_assoc]
      simp only [List.singleton_append, List.cons_append]
      refine congrArg₂ (fun a b => a ++ b) ?_ ?_
      · refine flatMap_congr _ _ _ ?_
        intro idx hidx
        rw [List.mem_range] at hidx
        rw [if_pos (show idx ≠ m + 1 by omega),
          if_pos (show idx ≠ m by omega)]
        rw [getD_append_lt l q 0 idx (by omega)]
        refine congrArg (fun r => Call.app1 HGate (l.getD idx 0) none :: r) ?_
        rw [getD_append_lt l q 0 (idx + 1) (by omega)]
        refine List.map_congr_left ?_
        intro y hy
        rw [List.mem_reverse, List.mem_range] at hy
        rw [getD_append_lt l q 0 y (by omega)]
      · congr 1
        congr 1
        refine List.map_congr_left ?_
        intro y hy
        rw [List.mem_reverse, List.mem_range] at hy
        rw [getD_append_lt l q 0 y (by omega)]

theorem applyCalls_u1list (cq : ℕ) (f : ℕ → ℕ) (g : ℕ → ℝ) (J : List ℕ)
    (ψ : QState ℂ) :
    applyCalls (J.map fun j =>
        Call.appc (U1 (g j)) (.pos cq) (f j) (some (g j))) ψ =
      fun b => (J.map fun j => u1p (g j) cq (f j) b).prod * ψ b := by
  induction J generalizing ψ with
  | nil =>
      funext b
      simp
  | cons j js ih =>
      simp only [List.map_cons, applyCalls_cons]
      have h1 : applyCall (Call.appc (U1 (g j)) (.pos cq) (f j) (some (g j)))
          ψ = fun b => u1p (g j) cq (f j) b * ψ b := applycK_U1 (g j) cq (f j) ψ
      rw [h1, ih]
      funext b
      simp only [List.prod_cons]
      ring

theorem rot_cancel (l : List ℕ) (q : ℕ) (ψ : QState ℂ) :
    applyCalls (invRotNew l q) (applyCalls (qftRotNew l q) ψ) = ψ := by
  rw [qftRotNew, invRotNew, applyCalls_u1list, applyCalls_u1list]
  funext b
  rw [← mul_assoc, ← List.prod_map_mul]
  have h1 : ((List.range l.length).reverse.map fun j =>
      u1p (-(Real.pi / 2 ^ (l.length - j))) q (l.getD j 0) b *
        u1p (Real.pi / 2 ^ (l.length - j)) q (l.getD j 0) b).prod = 1 := by
    refine List.prod_eq_one ?_
    intro x hx
    rw [List.mem_map] at hx
    obtain ⟨j, hj, rfl⟩ := hx
    exact u1p_neg_mul (Real.pi / 2 ^ (l.length - j)) q (l.getD j 0) b
  rw [h1, one_mul]

theorem qft_roundtrip (reg : List ℕ) (ψ : QState ℂ) :
    applyCalls (qftCalls reg ++ invQftCalls reg) ψ = ψ := by
  induction reg using List.reverseRecOn generalizing ψ with
  | nil => rfl
  | append_singleton l q ih =>
      rw [qftCalls_append, invQftCalls_append]
      rw [applyCalls_append, applyCalls_append, applyCalls_append,
        applyCalls_append]
      have hmid : ∀ χ : QState ℂ,
          applyCalls (invQftCalls l) (applyCalls (qftCalls l) χ) = χ := by
        intro χ
        have := ih χ
        rwa [applyCalls_append] at this
      rw [hmid]
      show applyCalls [Call.app1 HGate q none]
        (applyCalls (invRotNew l q)
          (applyCalls (qftRotNew l q)
            (applyCalls [Call.app1 HGate q none] ψ))) = ψ
      rw [rot_cancel]
      show apply1K HGate q (apply1K HGate q ψ) = ψ
      rw [apply1K_apply1K, HGate_mul_HGate, apply1K_one]

/-- C6: on an eager circuit, qc.qft followed by qc.inverse_qft on a
register of size one to six (both without swaps) succeeds and returns the
state exactly to where it started. -/
theorem claim_C6 (c : qc ℂ) (reg : List ℕ) (h1 : 1 ≤ reg.length)
    (h6 : reg.length ≤ 6) (he : c.eager = true)
    (hin : ∀ q ∈ reg, q < c.nbits) :
    (qc.qft c reg false).2 = none ∧
    (qc.inverse_qft (qc.qft c reg false).1 reg false).2 = none ∧
    (qc.inverse_qft (qc.qft c reg false).1 reg false).1.psi = c.psi := by
  have hokQ : ∀ k ∈ qftCalls reg, CallOk c.nbits k := by
    intro k hk
    simp only [qftCalls, List.mem_flatMap, List.mem_reverse, List.mem_range,
      List.mem_cons, List.mem_map] at hk
    obtain ⟨i, hi, hk⟩ := hk
    rcases hk with rfl | ⟨j, hj, rfl⟩
    · exact hin _ (getD_mem reg 0 i hi)
    · exact ⟨hin _ (getD_mem reg 0 j (by omega)),
        hin _ (getD_mem reg 0 i hi)⟩
  have hokI : ∀ k ∈ invQftCalls reg, CallOk c.nbits k := by
    intro k hk
    simp only [invQftCalls, List.mem_flatMap, List.mem_range,
      List.mem_cons] at hk
    obtain ⟨idx, hidx, hk⟩ := hk
    rcases hk with rfl | hk
    · exact hin _ (getD_mem reg 0 idx hidx)
    · by_cases hg : idx ≠ reg.length - 1
      · rw [if_pos hg] at hk
        rw [List.mem_map] at hk
        obtain ⟨y, hy, rfl⟩ := hk
        rw [List.mem_reverse, List.mem_range] at hy
        exact ⟨hin _ (getD_mem reg 0 y (by omega)),
          hin _ (getD_mem reg 0 (idx + 1) (by omega))⟩
      · rw [if_neg hg] at hk
        simp at hk
  have e1 : qc.qft c reg false = execCalls c (qftCalls reg) := by
    rw [qc.qft]
    norm_num
  rw [e1, execCalls_eager c (qftCalls reg) he hokQ]
  have e2 : qc.inverse_qft
      ({ c with
          psi := applyCalls (qftCalls reg) c.psi,
          ir := c.ir ++ cond c.build_ir (irOfCalls (qftCalls reg)) [] } : qc ℂ)
      reg false =
      execCalls
        ({ c with
            psi := applyCalls (qftCalls reg) c.psi,
            ir := c.ir ++ cond c.build_ir (irOfCalls (qftCalls reg)) [] } : qc ℂ)
        (invQftCalls reg) := by
    rw [qc.inverse_qft]
    norm_num
  rw [e2, execCalls_eager
      ({ c with
          psi := applyCalls (qftCalls reg) c.psi,
          ir := c.ir ++ cond c.build_ir (irOfCalls (qftCalls reg)) [] } : qc ℂ)
      (invQftCalls reg) he hokI]
  refine ⟨rfl, rfl, ?_⟩
  have h := qft_roundtrip reg c.psi
  rwa [applyCalls_append] at h

theorem claim_C6_witness :
    (qc.qft cEx [0, 1, 2] false).2 = none ∧
    (qc.inverse_qft (qc.qft cEx [0, 1, 2] false).1 [0, 1, 2] false).2 =
      none ∧
    (qc.inverse_qft (qc.qft cEx [0, 1, 2] false).1 [0, 1, 2] false).1.psi =
      cEx.psi :=
  claim_C6 cEx [0, 1, 2] (by decide) (by decide) rfl (by decide)

/-- The eager effect of qc.ccx with plain controls is composition with
the doubly-controlled X permutation. -/
theorem ccx_sem (sm : Mat2 ℂ → Mat2 ℂ) (hsm : sm (XGate ℂ) = sqrtX)
    (c0 c1 t : ℕ) (h01 : c0 ≠ c1) (h0t : c0 ≠ t) (h1t : c1 ≠ t)
    (ψ : QState ℂ) :
    applyCalls (ccxCalls sm (.pos c0) (.pos c1) t) ψ =
      fun b => ψ (ccxP c0 c1 t b) := by
  rw [ccxCalls, applyCalls_ccu_pos, hsm,
    sleator sqrtX (XGate ℂ) sqrtX_mul_sqrtX sqrtX_star_mul sqrtX_mul_star
      c0 c1 t h01 h0t h1t ψ]
  funext b
  by_cases hb : b c0 && b c1 <;> simp [ccxP, hb, apply1K_X]

theorem ccxP_invol (c0 c1 t : ℕ) (h0t : c0 ≠ t) (h1t : c1 ≠ t)
    (b : ℕ → Bool) : ccxP c0 c1 t (ccxP c0 c1 t b) = b := by
  by_cases hb : b c0 && b c1
  · simp [ccxP, hb, Function.update_noteq h0t, Function.update_noteq h1t,
      Function.update_idem]
  · simp [ccxP, hb]

theorem basis_perm (x : ℕ → Bool) (p : (ℕ → Bool) → (ℕ → Bool))
    (hp : ∀ b, p (p b) = b) :
    (fun b => basis x (p b)) = basis (p x) := by
  funext b
  unfold basis
  by_cases hb : p b = x
  · rw [if_pos hb, if_pos (by rw [← hb, hp])]
  · rw [if_neg hb, if_neg (fun hc => hb (by rw [hc, hp]))]

theorem basis_ne_zero {y z : ℕ → Bool} (h : z ≠ y) : basis y z = 0 := by
  unfold basis
  rw [if_neg h]

theorem applycK_basis_true (g : Mat2 ℂ) (cq t : ℕ) (hct : cq ≠ t)
    (y : ℕ → Bool) (hy : y cq = true) :
    applycK g cq t (basis y) = apply1K g t (basis y) := by
  funext b
  by_cases hb : b cq
  · exact applycK_true (by simpa using hb)
  · have hb' : b cq = false := by simpa using hb
    rw [applycK_false hb']
    have z0 : basis y (Function.update b t false) = 0 :=
      basis_ne_zero (fun hc => by
        have := congrFun hc cq
        rw [Function.update_noteq hct] at this
        rw [this, hy] at hb'
        exact Bool.true_eq_false.mp hb')
    have z1 : basis y (Function.update b t true) = 0 :=
      basis_ne_zero (fun hc => by
        have := congrFun hc cq
        rw [Function.update_noteq hct] at this
        rw [this, hy] at hb'
        exact Bool.true_eq_false.mp hb')
    have zb : basis y b = 0 :=
      basis_ne_zero (fun hc => by
        rw [hc, hy] at hb'
        exact Bool.true_eq_false.mp hb')
    rw [zb, apply1K, z0, z1]
    ring

theorem applycK_basis_false (g : Mat2 ℂ) (cq t : ℕ) (hct : cq ≠ t)
    (y : ℕ → Bool) (hy : y cq = false) :
    applycK g cq t (basis y) = basis y := by
  funext b
  by_cases hb : b cq
  · rw [applycK_true (by simpa using hb)]
    have hb' : b cq = true := by simpa using hb
    have z0 : basis y (Function.update b t false) = 0 :=
      basis_ne_zero (fun hc => by
        have := congrFun hc cq
        rw [Function.update_noteq hct] at this
        rw [this, hy] at hb'
        exact Bool.false_eq_true.mp hb')
    have z1 : basis y (Function.update b t true) = 0 :=
      basis_ne_zero (fun hc => by
        have := congrFun hc cq
        rw [Function.update_noteq hct] at this
        rw [this, hy] at hb'
        exact Bool.false_eq_true.mp hb')
    have zb : basis y b = 0 :=
      basis_ne_zero (fun hc => by
        rw [hc, hy] at hb'
        exact Bool.false_eq_true.mp hb')
    rw [zb, apply1K, z0, z1]
    ring
  · have hb' : b cq = false := by simpa using hb
    rw [applycK_false hb']

theorem ccxP_comm_apply1K (g : Mat2 ℂ) (c0 c1 u t : ℕ) (h0 : c0 ≠ t)
    (h1 : c1 ≠ t) (hu : u ≠ t) (φ : QState ℂ) :
    (fun b => apply1K g t φ (ccxP c0 c1 u b)) =
      apply1K g t (fun b => φ (ccxP c0 c1 u b)) := by
  have hpt : ∀ b : ℕ → Bool, ccxP c0 c1 u b t = b t := by
    intro b
    unfold ccxP
    by_cases hc : b c0 && b c1 <;>
      simp [hc, Function.update_noteq (Ne.symm hu)]
  have hpu : ∀ (b : ℕ → Bool) (v : Bool),
      ccxP c0 c1 u (Function.update b t v) =
        Function.update (ccxP c0 c1 u b) t v := by
    intro b v
    unfold ccxP
    rw [Function.update_noteq h0, Function.update_noteq h1,
      Function.update_noteq hu]
    by_cases hc : b c0 && b c1
    · rw [if_pos hc, if_pos hc, Function.update_comm (Ne.symm hu)]
    · rw [if_neg hc, if_neg hc]
  funext b
  show apply1K g t φ (ccxP c0 c1 u b) = _
  rw [apply1K, apply1K]
  rw [hpt b, ← hpu b false, ← hpu b true]

theorem andPre_succ (x : ℕ → Bool) (γ0 γ1 : ℕ) (δ : List ℕ) (j : ℕ)
    (hj : j < δ.length) :
    andPre x γ0 γ1 δ (j + 1) = (x (δ.getD j 0) && andPre x γ0 γ1 δ j) := by
  unfold andPre
  rw [List.take_succ]
  have h : δ[j]? = some (δ.getD j 0) := by
    rw [List.getElem?_eq_getElem hj, List.getD_eq_getElem δ 0 hj]
  rw [h]
  simp only [List.all_append, List.all_cons, List.all_nil, Bool.and_true,
    Option.toList_some]
  cases x γ0 <;> cases x γ1 <;> cases (δ.take j).all x <;>
    cases x (δ.getD j 0) <;> rfl

theorem andPre_full (x : ℕ → Bool) (γ0 γ1 : ℕ) (δ : List ℕ) :
    andPre x γ0 γ1 δ δ.length = (γ0 :: γ1 :: δ).all x := by
  unfold andPre
  rw [List.take_length]
  simp [Bool.and_assoc]

theorem zChain_untouched (x : ℕ → Bool) (a : ℕ → ℕ) (A : ℕ → Bool)
    (j : ℕ) (p : ℕ) (hp : ∀ i ≤ j, p ≠ a i) : zChain x a A j p = x p := by
  induction j with
  | zero =>
      rw [zChain, Function.update_noteq (hp 0 (Nat.le_refl 0))]
  | succ m ih =>
      rw [zChain, Function.update_noteq (hp (m + 1) (Nat.le_refl (m + 1)))]
      exact ih fun i hi => hp i (Nat.le_succ_of_le hi)

theorem zChain_last (x : ℕ → Bool) (a : ℕ → ℕ) (A : ℕ → Bool) (j : ℕ) :
    zChain x a A j (a j) = A j := by
  cases j with
  | zero => rw [zChain, Function.update_same]
  | succ m => rw [zChain, Function.update_same]

theorem getD_map_pos (cs : List ℕ) (j : ℕ) (hj : j < cs.length) :
    (cs.map CtlArg.pos).getD j default = CtlArg.pos (cs.getD j 0) := by
  rw [List.getD_eq_getElem _ _ (by simpa using hj), List.getElem_map,
    List.getD_eq_getElem _ _ hj]

theorem mcLadder_eq (sm : Mat2 ℂ → Mat2 ℂ) (γ0 γ1 : ℕ) (δ : List ℕ)
    (t : ℕ) (auxs : List ℕ) (g : Mat2 ℂ) :
    mcLadderCalls sm ((γ0 :: γ1 :: δ).map CtlArg.pos) t auxs g =
      ccxCalls sm (.pos γ0) (.pos γ1) (auxs.getD 0 0) ++
      (List.range δ.length).flatMap
        (ladderStep sm δ fun j => auxs.getD j 0) ++
      [Call.appc g (.pos (auxs.getD δ.length 0)) t none] ++
      (List.range δ.length).reverse.flatMap
        (ladderStep sm δ fun j => auxs.getD j 0) ++
      ccxCalls sm (.pos γ0) (.pos γ1) (auxs.getD 0 0) := by
  unfold mcLadderCalls ladderStep
  simp only [List.length_map, List.length_cons]
  have h2 : δ.length + 1 + 1 - 2 = δ.length := by omega
  rw [h2]
  have hstep : ∀ j ∈ List.range δ.length,
      ccxCalls sm (((γ0 :: γ1 :: δ).map CtlArg.pos).getD (j + 2) default)
        (.pos (auxs.getD j 0)) (auxs.getD (j + 1) 0) =
      ccxCalls sm (.pos (δ.getD j 0)) (.pos (auxs.getD j 0))
        (auxs.getD (j + 1) 0) := by
    intro j hj
    rw [List.mem_range] at hj
    have : ((γ0 :: γ1 :: δ).map CtlArg.pos).getD (j + 2) default =
        (δ.map CtlArg.pos).getD j default := rfl
    rw [this, getD_map_pos δ j hj]
  rw [flatMap_congr _ _ _ hstep]
  have hstep2 : ∀ j ∈ (List.range δ.length).reverse,
      ccxCalls sm (((γ0 :: γ1 :: δ).map CtlArg.pos).getD (j + 2) default)
        (.pos (auxs.getD j 0)) (auxs.getD (j + 1) 0) =
      ccxCalls sm (.pos (δ.getD j 0)) (.pos (auxs.getD j 0))
        (auxs.getD (j + 1) 0) := by
    intro j hj
    rw [List.mem_reverse] at hj
    exact hstep j hj
  rw [flatMap_congr _ _ _ hstep2]
  rfl

theorem ccxP_on_false (c0 c1 u : ℕ) (y : ℕ → Bool) (hyu : y u = false) :
    ccxP c0 c1 u y = Function.update y u (y c0 && y c1) := by
  unfold ccxP
  by_cases hc : y c0 && y c1
  · rw [if_pos hc, hyu, hc]
    simp only [Bool.not_false]
  · have hc' : (y c0 && y c1) = false := by simpa using hc
    rw [if_neg hc, hc']
    exact (update_eq_self_of y u false hyu).symm

theorem ladder_forward (sm : Mat2 ℂ → Mat2 ℂ) (hsm : sm (XGate ℂ) = sqrtX)
    (δ : List ℕ) (a : ℕ → ℕ) (x : ℕ → Bool)
    (hda : ∀ j i, j < δ.length → i ≤ δ.length → δ.getD j 0 ≠ a i)
    (haa : ∀ i j, i ≤ δ.length → j ≤ δ.length → i ≠ j → a i ≠ a j)
    (hxa : ∀ i, i ≤ δ.length → x (a i) = false) (A : ℕ → Bool)
    (hA : ∀ j, j < δ.length → A (j + 1) = (x (δ.getD j 0) && A j)) :
    ∀ m, m ≤ δ.length →
      applyCalls ((List.range m).flatMap (ladderStep sm δ a))
          (basis (zChain x a A 0)) =
        basis (zChain x a A m) := by
  intro m
  induction m with
  | zero => intro _; rfl
  | succ p ih =>
      intro hp
      rw [List.range_succ, List.flatMap_append, applyCalls_append,
        ih (by omega)]
      simp only [List.flatMap_cons, List.flatMap_nil, List.append_nil]
      rw [ladderStep, ccx_sem sm hsm _ _ _ (hda p p (by omega) (by omega))
        (hda p (p + 1) (by omega) (by omega))
        (haa p (p + 1) (by omega) (by omega) (by omega))]
      rw [basis_perm _ _ (ccxP_invol _ _ _
        (hda p (p + 1) (by omega) (by omega))
        (haa p (p + 1) (by omega) (by omega) (by omega)))]
      refine congrArg basis ?_
      have h1 : zChain x a A p (a (p + 1)) = false := by
        rw [zChain_untouched x a A p (a (p + 1))
          (fun i hi => haa (p + 1) i (by omega) (by omega) (by omega))]
        exact hxa (p + 1) (by omega)
      rw [ccxP_on_false _ _ _ _ h1]
      rw [zChain_untouched x a A p (δ.getD p 0)
        (fun i hi => hda p i (by omega) (by omega))]
      rw [zChain_last]
      rw [← hA p (by omega)]
      rfl

theorem ladder_backward (sm : Mat2 ℂ → Mat2 ℂ) (hsm : sm (XGate ℂ) = sqrtX)
    (δ : List ℕ) (a : ℕ → ℕ)
    (hda : ∀ j i, j < δ.length → i ≤ δ.length → δ.getD j 0 ≠ a i)
    (haa : ∀ i j, i ≤ δ.length → j ≤ δ.length → i ≠ j → a i ≠ a j) :
    ∀ m, m ≤ δ.length → ∀ φ : QState ℂ,
      applyCalls ((List.range m).reverse.flatMap (ladderStep sm δ a))
          (applyCalls ((List.range m).flatMap (ladderStep sm δ a)) φ) = φ := by
  intro m
  induction m with
  | zero => intro _ φ; rfl
  | succ p ih =>
      intro hp φ
      have hsem := ccx_sem sm hsm (δ.getD p 0) (a p) (a (p + 1))
        (hda p p (by omega) (by omega)) (hda p (p + 1) (by omega) (by omega))
        (haa p (p + 1) (by omega) (by omega) (by omega))
      have hinv : ∀ χ : QState ℂ,
          applyCalls (ladderStep sm δ a p)
            (applyCalls (ladderStep sm δ a p) χ) = χ := by
        intro χ
        rw [ladderStep, hsem, hsem]
        funext b
        show χ (ccxP (δ.getD p 0) (a p) (a (p + 1))
          (ccxP (δ.getD p 0) (a p) (a (p + 1)) b)) = χ b
        rw [ccxP_invol _ _ _ (hda p (p + 1) (by omega) (by omega))
          (haa p (p + 1) (by omega) (by omega) (by omega))]
      rw [List.range_succ, List.reverse_append, List.flatMap_append,
        List.flatMap_append]
      simp only [List.reverse_cons, List.reverse_nil, List.nil_append,
        List.flatMap_cons, List.flatMap_nil, List.append_nil]
      rw [applyCalls_append, applyCalls_append]
      rw [hinv]
      exact ih (by omega) φ

theorem ladder_comm (sm : Mat2 ℂ → Mat2 ℂ) (hsm : sm (XGate ℂ) = sqrtX)
    (δ : List ℕ) (a : ℕ → ℕ) (g : Mat2 ℂ) (t : ℕ)
    (hda : ∀ j i, j < δ.length → i ≤ δ.length → δ.getD j 0 ≠ a i)
    (haa : ∀ i j, i ≤ δ.length → j ≤ δ.length → i ≠ j → a i ≠ a j)
    (hdt : ∀ j, j < δ.length → δ.getD j 0 ≠ t)
    (hat : ∀ i, i ≤ δ.length → a i ≠ t) :
    ∀ m, m ≤ δ.length → ∀ φ : QState ℂ,
      applyCalls ((List.range m).flatMap (ladderStep sm δ a))
          (apply1K g t φ) =
        apply1K g t
          (applyCalls ((List.range m).flatMap (ladderStep sm δ a)) φ) := by
  intro m
  induction m with
  | zero => intro _ φ; rfl
  | succ p ih =>
      intro hp φ
      rw [List.range_succ, List.flatMap_append, applyCalls_append,
        applyCalls_append, ih (by omega)]
      simp only [List.flatMap_cons, List.flatMap_nil, List.append_nil]
      have hsem := ccx_sem sm hsm (δ.getD p 0) (a p) (a (p + 1))
        (hda p p (by omega) (by omega)) (hda p (p + 1) (by omega) (by omega))
        (haa p (p + 1) (by omega) (by omega) (by omega))
      rw [ladderStep]
      simp only [hsem]
      exact ccxP_comm_apply1K g (δ.getD p 0) (a p) (a (p + 1)) t
        (hdt p (by omega)) (hat p (by omega)) (hat (p + 1) (by omega)) _

/-- C3: qc.multi_control with k controls degenerates to qc.apply1 for
k = 0, to qc.applyc for k = 1 and to the qc.ccu call sequence for k = 2;
for k of at least 3 plain controls with at least k-1 distinct ancilla
qubits initialized to 0, the eager execution on a basis state applies the
gate to the target exactly when all control bits are 1, computing the
conjunction along the Toffoli ladder, and restores every ancilla (the
final state is the original basis state with at most the target qubit
changed). -/
theorem claim_C3 (sm : Mat2 ℂ → Mat2 ℂ) (hsm : sm (XGate ℂ) = sqrtX) :
    (∀ (c : qc ℂ) (t : ℕ) (aux : List ℕ) (g : Mat2 ℂ),
      qc.multi_control sm c [] t aux g = qc.apply1 c g t none) ∧
    (∀ (c : qc ℂ) (a0 : CtlArg) (t : ℕ) (aux : List ℕ) (g : Mat2 ℂ),
      qc.multi_control sm c [a0] t aux g = qc.applyc c g a0 t none) ∧
    (∀ (c : qc ℂ) (a0 a1 : CtlArg) (t : ℕ) (aux : List ℕ) (g : Mat2 ℂ),
      qc.multi_control sm c [a0, a1] t aux g =
        execCalls c (ccuCalls sm a0 a1 t g)) ∧
    (∀ (c : qc ℂ) (cs : List ℕ) (t : ℕ) (auxs : List ℕ) (g : Mat2 ℂ)
      (x : ℕ → Bool),
      3 ≤ cs.length → cs.length - 1 ≤ auxs.length →
      (cs ++ auxs ++ [t]).Nodup →
      (∀ q ∈ cs, q < c.nbits) → (∀ q ∈ auxs, q < c.nbits) →
      t < c.nbits → c.eager = true → c.psi = basis x →
      (∀ q ∈ auxs, x q = false) →
      (qc.multi_control sm c (cs.map CtlArg.pos) t auxs g).2 = none ∧
      (qc.multi_control sm c (cs.map CtlArg.pos) t auxs g).1.psi =
        if cs.all x then apply1K g t (basis x) else basis x) := by
  refine ⟨?_, ?_, ?_, ?_⟩
  · intro c t aux g
    rw [qc.multi_control, if_neg (by simp), if_pos rfl]
  · intro c a0 t aux g
    rw [qc.multi_control, if_neg (by simp), if_neg (by simp)]
    rfl
  · intro c a0 a1 t aux g
    rw [qc.multi_control,
      if_neg (by
        rintro ⟨hne, hlt⟩
        have h0 : aux.length = 0 := by simpa using hlt
        exact hne (List.length_eq_zero.mp h0)),
      if_neg (by simp), if_neg (by simp)]
    rfl
  · intro c cs t auxs g x h3 hlen hnd hcs hauxb ht he hpsi hx0
    rcases cs with _ | ⟨γ0, cs'⟩
    · simp at h3
    rcases cs' with _ | ⟨γ1, δ⟩
    · simp at h3
    have hlen' : δ.length + 1 ≤ auxs.length := by
      simp only [List.length_cons] at hlen
      omega
    have hδ1 : 1 ≤ δ.length := by
      simp only [List.length_cons] at h3
      omega
    rw [List.nodup_append] at hnd
    obtain ⟨hnd1, -, hdisj⟩ := hnd
    rw [List.nodup_append] at hnd1
    obtain ⟨hndc, hnda, hdisjca⟩ := hnd1
    have hamem : ∀ i, i ≤ δ.length → auxs.getD i 0 ∈ auxs :=
      fun i hi => getD_mem auxs 0 i (by omega)
    have hat : ∀ i, i ≤ δ.length → auxs.getD i 0 ≠ t := by
      intro i hi hc
      exact hdisj (List.mem_append_right _ (hamem i hi))
        (by rw [hc]; exact List.mem_singleton_self t)
    have haa : ∀ i j, i ≤ δ.length → j ≤ δ.length → i ≠ j →
        auxs.getD i 0 ≠ auxs.getD j 0 := by
      intro i j hi hj hij hc
      have hi' : i < auxs.length := by omega
      have hj' : j < auxs.length := by omega
      rw [List.getD_eq_getElem auxs 0 hi',
        List.getD_eq_getElem auxs 0 hj'] at hc
      exact hij ((List.Nodup.getElem_inj_iff hnda).mp hc)
    have hcsmem : ∀ q, q ∈ (γ0 :: γ1 :: δ) → ∀ i, i ≤ δ.length →
        q ≠ auxs.getD i 0 := by
      intro q hq i hi hc
      exact hdisjca hq (by rw [hc]; exact hamem i hi)
    have hcst : ∀ q, q ∈ (γ0 :: γ1 :: δ) → q ≠ t := by
      intro q hq hc
      exact hdisj (List.mem_append_left _ hq)
        (by rw [hc]; exact List.mem_singleton_self t)
    have hδmem : ∀ j, j < δ.length → δ.getD j 0 ∈ (γ0 :: γ1 :: δ) :=
      fun j hj => List.mem_cons_of_mem _
        (List.mem_cons_of_mem _ (getD_mem δ 0 j hj))
    have hda : ∀ j i, j < δ.length → i ≤ δ.length →
        δ.getD j 0 ≠ auxs.getD i 0 :=
      fun j i hj hi => hcsmem _ (hδmem j hj) i hi
    have hγ01 : γ0 ≠ γ1 := by
      have h := (List.nodup_cons.mp hndc).1
      exact fun hc => h (by rw [hc]; exact List.mem_cons_self γ1 δ)
    have hγ0a : ∀ i, i ≤ δ.length → γ0 ≠ auxs.getD i 0 :=
      fun i hi => hcsmem γ0 (List.mem_cons_self _ _) i hi
    have hγ1a : ∀ i, i ≤ δ.length → γ1 ≠ auxs.getD i 0 :=
      fun i hi => hcsmem γ1
        (List.mem_cons_of_mem _ (List.mem_cons_self _ _)) i hi
    have hγ0t : γ0 ≠ t := hcst γ0 (List.mem_cons_self _ _)
    have hγ1t : γ1 ≠ t :=
      hcst γ1 (List.mem_cons_of_mem _ (List.mem_cons_self _ _))
    have hδt : ∀ j, j < δ.length → δ.getD j 0 ≠ t :=
      fun j hj => hcst _ (hδmem j hj)
    have hxa : ∀ i, i ≤ δ.length → x (auxs.getD i 0) = false :=
      fun i hi => hx0 _ (hamem i hi)
    have hab : ∀ i, i ≤ δ.length → auxs.getD i 0 < c.nbits :=
      fun i hi => hauxb _ (hamem i hi)
    have hδb : ∀ j, j < δ.length → δ.getD j 0 < c.nbits :=
      fun j hj => hcs _ (hδmem j hj)
    have hγ0b : γ0 < c.nbits := hcs γ0 (List.mem_cons_self _ _)
    have hγ1b : γ1 < c.nbits :=
      hcs γ1 (List.mem_cons_of_mem _ (List.mem_cons_self _ _))
    have ccx_ok : ∀ u v w : ℕ, u < c.nbits → v < c.nbits → w < c.nbits →
        ∀ k ∈ ccxCalls sm (.pos u) (.pos v) w, CallOk c.nbits k := by
      intro u v w hu hv hw k hk
      simp [ccxCalls, ccuCalls, xIf] at hk
      rcases hk with h | h | h | h | h <;> subst h <;>
        exact ⟨by assumption, by assumption⟩
    have hmc : qc.multi_control sm c ((γ0 :: γ1 :: δ).map CtlArg.pos) t
        auxs g =
        execCalls c
          (mcLadderCalls sm ((γ0 :: γ1 :: δ).map CtlArg.pos) t auxs g) := by
      rw [qc.multi_control]
      rw [if_neg (by
        rintro ⟨-, h2⟩
        simp only [List.length_map, List.length_cons] at h2
        omega)]
      rw [if_neg (by simp)]
      rw [if_neg (by simp only [List.length_map, List.length_cons]; omega)]
      rw [if_neg (by simp only [List.length_map, List.length_cons]; omega)]
      rw [if_neg (by
        intro hc
        rw [hc] at hlen'
        simp at hlen')]
    have hok : ∀ k ∈ mcLadderCalls sm ((γ0 :: γ1 :: δ).map CtlArg.pos) t
        auxs g, CallOk c.nbits k := by
      rw [mcLadder_eq]
      intro k hk
      simp only [List.mem_append] at hk
      rcases hk with (((hk | hk) | hk) | hk) | hk
      · exact ccx_ok γ0 γ1 (auxs.getD 0 0) hγ0b hγ1b (hab 0 (by omega)) k hk
      · rw [List.mem_flatMap] at hk
        obtain ⟨j, hj, hk⟩ := hk
        rw [List.mem_range] at hj
        exact ccx_ok _ _ _ (hδb j hj) (hab j (by omega))
          (hab (j + 1) (by omega)) k hk
      · rw [List.mem_singleton] at hk
        subst hk
        exact ⟨ht, hab δ.length (by omega)⟩
      · rw [List.mem_flatMap] at hk
        obtain ⟨j, hj, hk⟩ := hk
        rw [List.mem_reverse, List.mem_range] at hj
        exact ccx_ok _ _ _ (hδb j hj) (hab j (by omega))
          (hab (j + 1) (by omega)) k hk
      · exact ccx_ok γ0 γ1 (auxs.getD 0 0) hγ0b hγ1b (hab 0 (by omega)) k hk
    rw [hmc, execCalls_eager c _ he hok]
    refine ⟨rfl, ?_⟩
    show applyCalls
      (mcLadderCalls sm ((γ0 :: γ1 :: δ).map CtlArg.pos) t auxs g) c.psi = _
    rw [hpsi, mcLadder_eq, applyCalls_append, applyCalls_append,
      applyCalls_append, applyCalls_append]
    have hinit := ccx_sem sm hsm γ0 γ1 (auxs.getD 0 0) hγ01
      (hγ0a 0 (by omega)) (hγ1a 0 (by omega))
    have hz0 : ccxP γ0 γ1 (auxs.getD 0 0) x =
        zChain x (fun j => auxs.getD j 0)
          (fun j => andPre x γ0 γ1 δ j) 0 := by
      rw [ccxP_on_false _ _ _ x (hxa 0 (by omega))]
      show Function.update x (auxs.getD 0 0) (x γ0 && x γ1) = _
      rw [zChain]
      refine congrArg (Function.update x (auxs.getD 0 0)) ?_
      unfold andPre
      simp
    have hstart : applyCalls
        (ccxCalls sm (.pos γ0) (.pos γ1) (auxs.getD 0 0)) (basis x) =
        basis (zChain x (fun j => auxs.getD j 0)
          (fun j => andPre x γ0 γ1 δ j) 0) := by
      rw [hinit, basis_perm _ _ (ccxP_invol _ _ _ (hγ0a 0 (by omega))
        (hγ1a 0 (by omega))), hz0]
    have hfwd := ladder_forward sm hsm δ (fun j => auxs.getD j 0) x hda haa
      hxa (fun j => andPre x γ0 γ1 δ j)
      (fun j hj => andPre_succ x γ0 γ1 δ j hj) δ.length (Nat.le_refl _)
    have hcenter_val : zChain x (fun j => auxs.getD j 0)
        (fun j => andPre x γ0 γ1 δ j) δ.length (auxs.getD δ.length 0) =
        (γ0 :: γ1 :: δ).all x := by
      rw [zChain_last]
      exact andPre_full x γ0 γ1 δ
    have hback : applyCalls
        (ccxCalls sm (.pos γ0) (.pos γ1) (auxs.getD 0 0))
        (basis (zChain x (fun j => auxs.getD j 0)
          (fun j => andPre x γ0 γ1 δ j) 0)) = basis x := by
      rw [hinit, basis_perm _ _ (ccxP_invol _ _ _ (hγ0a 0 (by omega))
        (hγ1a 0 (by omega))), ← hz0,
        ccxP_invol _ _ _ (hγ0a 0 (by omega)) (hγ1a 0 (by omega))]
    rw [hstart, hfwd]
    show applyCalls (ccxCalls sm (.pos γ0) (.pos γ1) (auxs.getD 0 0))
      (applyCalls ((List.range δ.length).reverse.flatMap
        (ladderStep sm δ fun j => auxs.getD j 0))
        (applycK g (auxs.getD δ.length 0) t
          (basis (zChain x (fun j => auxs.getD j 0)
            (fun j => andPre x γ0 γ1 δ j) δ.length)))) = _
    by_cases hand : (γ0 :: γ1 :: δ).all x
    · rw [applycK_basis_true g _ t (hat δ.length (Nat.le_refl _)) _
        (by rw [hcenter_val, hand])]
      rw [← hfwd,
        ← ladder_comm sm hsm δ (fun j => auxs.getD j 0) g t hda haa hδt hat
          δ.length (Nat.le_refl _),
        ladder_backward sm hsm δ (fun j => auxs.getD j 0) hda haa δ.length
          (Nat.le_refl _)]
      have hinitcomm : applyCalls
          (ccxCalls sm (.pos γ0) (.pos γ1) (auxs.getD 0 0))
          (apply1K g t (basis (zChain x (fun j => auxs.getD j 0)
            (fun j => andPre x γ0 γ1 δ j) 0))) =
          apply1K g t (applyCalls
            (ccxCalls sm (.pos γ0) (.pos γ1) (auxs.getD 0 0))
            (basis (zChain x (fun j => auxs.getD j 0)
              (fun j => andPre x γ0 γ1 δ j) 0))) := by
        simp only [hinit]
        exact ccxP_comm_apply1K g γ0 γ1 (auxs.getD 0 0) t hγ0t hγ1t
          (hat 0 (by omega)) _
      rw [hinitcomm, hback, if_pos hand]
    · rw [applycK_basis_false g _ t (hat δ.length (Nat.le_refl _)) _
        (by rw [hcenter_val]; exact Bool.not_eq_true _ ▸ (by simpa using hand))]
      rw [← hfwd,
        ladder_backward sm hsm δ (fun j => auxs.getD j 0) hda haa δ.length
          (Nat.le_refl _), hback, if_neg hand]

theorem claim_C3_witness :
    ((fun _ : Mat2 ℂ => sqrtX) (XGate ℂ) = sqrtX) ∧
    (qc.multi_control (fun _ => sqrtX) cC3 ([0, 1, 2].map CtlArg.pos) 5
        [3, 4] (XGate ℂ)).2 = none ∧
    (qc.multi_control (fun _ => sqrtX) cC3 ([0, 1, 2].map CtlArg.pos) 5
        [3, 4] (XGate ℂ)).1.psi =
      if [0, 1, 2].all (fun q => decide (q < 3)) then
        apply1K (XGate ℂ) 5 (basis (fun q => decide (q < 3)))
      else basis (fun q => decide (q < 3)) :=
  ⟨rfl,
    (claim_C3 (fun _ => sqrtX) rfl).2.2.2 cC3 [0, 1, 2] 5 [3, 4] (XGate ℂ)
      (fun q => decide (q < 3)) (by decide) (by decide) (by decide)
      (by decide) (by decide) (by decide) rfl rfl (by decide)⟩
